import Mathlib

/-!
# Verification of the portunus migration engine

This file gives a shallow embedding, in Lean 4, of the core of the
`portunus-rs` SQL-migration tool, and proves (or refutes) the frozen claims
about it.

The embedding covers:

* the canonicalizer/hasher of `MigrationEntry::new` (`src/database.rs`):
  global trim, per-line `--`-comment stripping, per-line trim, dropping of
  empty lines, rejoining with `\n`, followed by a digest of the canonical
  text.  The SHA-256 digest itself lives in the external `sha2` crate, so it
  is modelled as an abstract digest function passed as a parameter;
* the filename generator `create_new_migration` (`src/migrations.rs`):
  the two filename conventions (leading integer / 14-digit timestamp), the
  `max+1` rule and the fallback to the current UTC timestamp;
* the recursive file scanner of `run_migration`: `WalkDir` sorted with
  `sort_by(|a, b| a.file_name().cmp(b.file_name()))`, i.e. a depth-first
  walk whose siblings are sorted by file name;
* `run_migration` itself: the `BTreeMap`-based reconciliation of the on-disk
  entry set against the stored set, the drift/missing validation loop, and
  the transactional apply loop, with the database modelled as a store of
  `MigrationEntry` rows plus success/failure oracles for `batch_execute`
  and the tracking-table insert.

Strings are handled at the `List Char` level; Rust compares `OsStr`/`String`
keys byte-wise over UTF-8, which coincides with lexicographic comparison of
unicode scalar values, which is what the embedding uses.  Whitespace is the
full Unicode White_Space class that Rust's `char::is_whitespace` uses.  The
regex class `\d` is modelled on its ASCII fragment; this is harmless for
the naming claims because a non-ASCII digit prefix fails `parse::<u32>()`
in the code, so neither route records a convention either way.
-/

/-! ## Byte-wise (scalar-value) lexicographic order on strings

Models Rust's `Ord` on `String`/`OsStr` (byte-wise comparison of the UTF-8
encoding, which orders exactly like the scalar values). -/

/-- Strict lexicographic order on char lists by scalar value. -/
def lexLt : List Char → List Char → Bool
  | [], [] => false
  | [], _ :: _ => true
  | _ :: _, [] => false
  | a :: as, b :: bs =>
    if a.toNat < b.toNat then true
    else if b.toNat < a.toNat then false
    else lexLt as bs

/-- Strict byte-wise order on strings, as used by `BTreeMap<String, _>`
iteration order and by the `WalkDir` comparator. -/
def strLt (a b : String) : Bool := lexLt a.data b.data

theorem char_eq_of_toNat {a b : Char} (h : a.toNat = b.toNat) : a = b :=
  Char.ext (UInt32.ext h)

theorem lexLt_irrefl : ∀ l : List Char, lexLt l l = false := by
  intro l
  induction l with
  | nil => rfl
  | cons a as ih => simp [lexLt, ih]

theorem lexLt_trichotomy :
    ∀ a b : List Char, lexLt a b = false → lexLt b a = false → a = b := by
  intro a
  induction a with
  | nil =>
    intro b h1 _
    cases b with
    | nil => rfl
    | cons x xs => simp [lexLt] at h1
  | cons x xs ih =>
    intro b h1 h2
    cases b with
    | nil => simp [lexLt] at h2
    | cons y ys =>
      simp only [lexLt] at h1 h2
      by_cases hxy : x.toNat < y.toNat
      · simp [hxy] at h1
      · by_cases hyx : y.toNat < x.toNat
        · simp [hxy, hyx] at h2
        · have hch : x = y := char_eq_of_toNat (by omega)
          subst hch
          simp [hxy] at h1 h2
          rw [ih ys h1 h2]

theorem lexLt_trans :
    ∀ a b c : List Char, lexLt a b = true → lexLt b c = true →
      lexLt a c = true := by
  intro a
  induction a with
  | nil =>
    intro b c hab hbc
    cases c with
    | nil =>
      cases b with
      | nil => exact hab
      | cons y ys => simp [lexLt] at hbc
    | cons z zs => simp [lexLt]
  | cons x xs ih =>
    intro b c hab hbc
    cases b with
    | nil => simp [lexLt] at hab
    | cons y ys =>
      cases c with
      | nil => simp [lexLt] at hbc
      | cons z zs =>
        simp only [lexLt] at hab hbc ⊢
        by_cases hxy : x.toNat < y.toNat
        · by_cases hyz : y.toNat < z.toNat
          · simp [show x.toNat < z.toNat by omega]
          · by_cases hzy : z.toNat < y.toNat
            · simp [hyz, hzy] at hbc
            · have : y = z := char_eq_of_toNat (by omega)
              subst this
              simp [hxy]
        · by_cases hyx : y.toNat < x.toNat
          · simp [hxy, hyx] at hab
          · have : x = y := char_eq_of_toNat (by omega)
            subst this
            simp [hxy] at hab
            by_cases hyz : x.toNat < z.toNat
            · simp [hyz]
            · by_cases hzy : z.toNat < x.toNat
              · simp [hyz, hzy] at hbc
              · have : x = z := char_eq_of_toNat (by omega)
                subst this
                simp [hyz, hzy] at hbc ⊢
                exact ih ys zs hab hbc

/-! ## Canonicalizer / hasher (`MigrationEntry::new`, src/database.rs)

Rust source:
```
let data = fs::read_to_string(&filename).expect(...).trim().to_string();
let cleaned_sql = data
    .lines()
    .map(|line| {
        let no_comment = match line.find("--") {
            Some(index) => &line[..index],
            None => line,
        };
        no_comment.trim()
    })
    .filter(|line| !line.is_empty())
    .collect::<Vec<_>>()
    .join("\n");
let mut hasher = Sha256::new();
hasher.update(&cleaned_sql);
let hash: String = format!("\x7b:X\x7d", hasher.finalize());
```
-/

/-- Whitespace predicate used by Rust's `str::trim`: `char::is_whitespace`,
i.e. the Unicode White_Space property (U+0009–U+000D, U+0020, U+0085,
U+00A0, U+1680, U+2000–U+200A, U+2028, U+2029, U+202F, U+205F, U+3000). -/
def wsChar (c : Char) : Bool :=
  c.toNat == 0x09 || c.toNat == 0x0A || c.toNat == 0x0B || c.toNat == 0x0C ||
  c.toNat == 0x0D || c.toNat == 0x20 || c.toNat == 0x85 || c.toNat == 0xA0 ||
  c.toNat == 0x1680 ||
  decide (0x2000 ≤ c.toNat ∧ c.toNat ≤ 0x200A) ||
  c.toNat == 0x2028 || c.toNat == 0x2029 || c.toNat == 0x202F ||
  c.toNat == 0x205F || c.toNat == 0x3000

/-- Models `str::trim_start`. -/
def trimLeftC (l : List Char) : List Char := l.dropWhile wsChar

/-- Models `str::trim_end`. -/
def trimRightC (l : List Char) : List Char := (l.reverse.dropWhile wsChar).reverse

/-- Models `str::trim` (drop whitespace from both ends). -/
def trimC (l : List Char) : List Char := trimRightC (trimLeftC l)

/-- Split at every `'\n'`, keeping empty pieces; helper returning the first
piece and the remaining pieces. -/
def splitNlAux : List Char → List Char × List (List Char)
  | [] => ([], [])
  | c :: rest =>
    let p := splitNlAux rest
    if c = '\n' then ([], p.1 :: p.2) else (c :: p.1, p.2)

/-- All pieces of a `'\n'`-split (always nonempty as a list of pieces). -/
def splitNl (l : List Char) : List (List Char) :=
  (splitNlAux l).1 :: (splitNlAux l).2

/-- Drop one trailing `'\r'`, as `str::lines` does per line. -/
def stripCrEnd (l : List Char) : List Char :=
  if l.getLast? = some '\r' then l.dropLast else l

/-- Drop the final piece when it is empty: `str::lines` yields no empty
final line for a trailing newline (and yields nothing on `""`). -/
def dropLastEmpty (ls : List (List Char)) : List (List Char) :=
  if ls.getLast? = some ([] : List Char) then ls.dropLast else ls

/-- Models Rust's `str::lines`: split on `'\n'`, drop a trailing empty
piece, strip one trailing `'\r'` from each line. -/
def rustLines (l : List Char) : List (List Char) :=
  (dropLastEmpty (splitNl l)).map stripCrEnd

/-- Cut the line at the first occurrence of `--`
(models `line.find("--")` + slicing). -/
def stripComment : List Char → List Char
  | [] => []
  | [c] => [c]
  | c :: d :: rest =>
    if c = '-' ∧ d = '-' then [] else c :: stripComment (d :: rest)

/-- Per-line cleaning: cut the comment, then trim the line. -/
def cleanLine (l : List Char) : List Char := trimC (stripComment l)

/-- Models `Vec::join("\n")`. -/
def joinNl (ls : List (List Char)) : List Char := List.intercalate ['\n'] ls

/-- Clean every line and drop the lines that became empty. -/
def keepLines (ls : List (List Char)) : List (List Char) :=
  (ls.map cleanLine).filter (fun l => !l.isEmpty)

/-- Canonical text of a migration file, at the char-list level: global trim,
split into lines, per-line comment-strip + trim, drop empty lines, rejoin
with `'\n'`. -/
def canonChars (l : List Char) : List Char :=
  joinNl (keepLines (rustLines (trimC l)))

/-- Canonical text of a migration file (the exact text handed to the
hasher by `MigrationEntry::new`). -/
def canonicalize (s : String) : String := String.mk (canonChars s.data)

/-- Hash of a migration file's content.  `digest` models the external
`sha2` crate's SHA-256-to-uppercase-hex pipeline, which is outside this
repository; the claims' guarantees hold for any collision-free digest. -/
def hashOf (digest : String → String) (content : String) : String :=
  digest (canonicalize content)

/-- Models `MigrationEntry` (src/database.rs).  The `timestamp` column is
assigned by the database (`DEFAULT CURRENT_TIMESTAMP`) and is never read by
`run_migration`, so it is not part of the model. -/
structure MigrationEntry where
  id : Option Nat
  filename : String
  hash : String
deriving DecidableEq, Repr

/-- Models `MigrationEntry::new`: base filename, hash of canonicalized
content, no id yet. -/
def MigrationEntry.ofFile (digest : String → String)
    (filename content : String) : MigrationEntry :=
  { id := none, filename := filename, hash := hashOf digest content }

example : canonicalize "SELECT 1; -- hi\n\n  CREATE x;  " = "SELECT 1;\nCREATE x;" := by decide
example : canonicalize "" = "" := by decide
example : canonicalize "  \n -- only comment\n" = "" := by decide

/-! ## Lemmas about trimming -/

theorem dropWhile_append_of_ne_nil {p : Char → Bool} {u v : List Char}
    (h : u.dropWhile p ≠ []) :
    (u ++ v).dropWhile p = u.dropWhile p ++ v := by
  rw [List.dropWhile_append]
  simp [List.isEmpty_iff, h]

theorem dropWhile_append_of_nil {p : Char → Bool} {u v : List Char}
    (h : u.dropWhile p = []) :
    (u ++ v).dropWhile p = v.dropWhile p := by
  rw [List.dropWhile_append]
  simp [List.isEmpty_iff, h]

theorem trimRightC_nil : trimRightC [] = [] := rfl

theorem trimRightC_eq_nil_iff {l : List Char} :
    trimRightC l = [] ↔ ∀ c ∈ l, wsChar c = true := by
  unfold trimRightC
  rw [List.reverse_eq_nil_iff, List.dropWhile_eq_nil_iff]
  constructor
  · intro h c hc
    exact h c (List.mem_reverse.mpr hc)
  · intro h c hc
    exact h c (List.mem_reverse.mp hc)

theorem trimRightC_append_ws {u w : List Char}
    (hw : ∀ c ∈ w, wsChar c = true) :
    trimRightC (u ++ w) = trimRightC u := by
  unfold trimRightC
  rw [List.reverse_append, dropWhile_append_of_nil]
  rw [List.dropWhile_eq_nil_iff]
  intro c hc
  exact hw c (List.mem_reverse.mp hc)

theorem trimRightC_append_of_nonws {u v : List Char}
    (hv : ∃ c ∈ v, wsChar c = false) :
    trimRightC (u ++ v) = u ++ trimRightC v := by
  unfold trimRightC
  rw [List.reverse_append, dropWhile_append_of_ne_nil, List.reverse_append,
    List.reverse_reverse]
  intro h
  rw [List.dropWhile_eq_nil_iff] at h
  obtain ⟨c, hc, hcw⟩ := hv
  have := h c (List.mem_reverse.mpr hc)
  rw [this] at hcw
  exact absurd hcw (by simp)

theorem trimRightC_decomp (l : List Char) :
    ∃ w, l = trimRightC l ++ w ∧ ∀ c ∈ w, wsChar c = true := by
  refine ⟨(l.reverse.takeWhile wsChar).reverse, ?_, ?_⟩
  · have h := List.takeWhile_append_dropWhile (p := wsChar) (l := l.reverse)
    calc l = l.reverse.reverse := (List.reverse_reverse l).symm
    _ = ((l.reverse.takeWhile wsChar) ++ (l.reverse.dropWhile wsChar)).reverse := by
        rw [h]
    _ = (l.reverse.dropWhile wsChar).reverse ++ (l.reverse.takeWhile wsChar).reverse := by
        rw [List.reverse_append]
    _ = trimRightC l ++ (l.reverse.takeWhile wsChar).reverse := rfl
  · intro c hc
    rw [List.mem_reverse] at hc
    exact List.mem_takeWhile_imp hc

theorem trimRightC_mem_subset {l : List Char} {c : Char}
    (h : c ∈ trimRightC l) : c ∈ l := by
  obtain ⟨w, hdec, _⟩ := trimRightC_decomp l
  rw [hdec]
  exact List.mem_append_left _ h

theorem trimRightC_cons (a : Char) (u : List Char) :
    trimRightC (a :: u) =
      if trimRightC u = [] then (if wsChar a then [] else [a])
      else a :: trimRightC u := by
  by_cases h : trimRightC u = []
  · simp only [h, if_true]
    have hall : ∀ c ∈ u, wsChar c = true := trimRightC_eq_nil_iff.mp h
    have : (a :: u) = [a] ++ u := rfl
    rw [this, trimRightC_append_ws hall]
    by_cases ha : wsChar a
    · simp [ha, trimRightC, List.dropWhile]
    · simp only [ha, if_false]
      simp [trimRightC, List.dropWhile, ha]
  · simp only [h, if_false]
    have hne : ∃ c ∈ u, wsChar c = false := by
      by_contra hcon
      push_neg at hcon
      have : ∀ c ∈ u, wsChar c = true := by
        intro c hc
        have := hcon c hc
        revert this
        cases wsChar c <;> simp
      exact h (trimRightC_eq_nil_iff.mpr this)
    have : (a :: u) = [a] ++ u := rfl
    rw [this, trimRightC_append_of_nonws hne]
    rfl

theorem trimLeftC_nil : trimLeftC [] = [] := rfl

theorem trimLeftC_cons (a : Char) (u : List Char) :
    trimLeftC (a :: u) = if wsChar a then trimLeftC u else a :: u := by
  simp [trimLeftC, List.dropWhile_cons]

theorem trimLeftC_eq_nil_iff {l : List Char} :
    trimLeftC l = [] ↔ ∀ c ∈ l, wsChar c = true := by
  unfold trimLeftC
  exact List.dropWhile_eq_nil_iff

theorem trimC_append_ws {x w : List Char}
    (hw : ∀ c ∈ w, wsChar c = true) :
    trimC (x ++ w) = trimC x := by
  unfold trimC trimLeftC
  by_cases h : x.dropWhile wsChar = []
  · rw [dropWhile_append_of_nil h, h, trimRightC_nil]
    rw [trimRightC_eq_nil_iff]
    intro c hc
    exact hw c ((List.dropWhile_sublist wsChar).mem hc)
  · rw [dropWhile_append_of_ne_nil h, trimRightC_append_ws hw]

/-! ## Lemmas about comment stripping and line cleaning -/

theorem ws_ne_dash {c : Char} (h : wsChar c = true) : c ≠ '-' := by
  intro heq
  subst heq
  exact absurd h (by decide)

theorem stripComment_cons {c : Char} {rest : List Char}
    (h : ¬(c = '-' ∧ rest.head? = some '-')) :
    stripComment (c :: rest) = c :: stripComment rest := by
  cases rest with
  | nil => rfl
  | cons d r =>
    have : ¬(c = '-' ∧ d = '-') := by
      intro hcd
      exact h ⟨hcd.1, by simp [hcd.2]⟩
    simp [stripComment, this]

theorem stripComment_dashdash (r : List Char) :
    stripComment ('-' :: '-' :: r) = [] := by
  simp [stripComment]

theorem stripComment_of_no_dash {l : List Char} (h : '-' ∉ l) :
    stripComment l = l := by
  induction l with
  | nil => rfl
  | cons c rest ih =>
    have hc : c ≠ '-' := fun he => h (he ▸ List.mem_cons_self c rest)
    rw [stripComment_cons (by intro hx; exact hc hx.1)]
    rw [ih (fun hm => h (List.mem_cons_of_mem c hm))]

theorem trimRight_stripComment_snoc_ws {c : Char} (hc : wsChar c = true) :
    ∀ p : List Char,
      trimRightC (stripComment (p ++ [c])) = trimRightC (stripComment p)
  | [] => by
    have h1 : stripComment ([] ++ [c]) = [c] := rfl
    rw [h1]
    show trimRightC ([] ++ [c]) = trimRightC (stripComment [])
    rw [trimRightC_append_ws (by intro x hx; rw [List.mem_singleton] at hx; rwa [hx])]
    rfl
  | [a] => by
    have hcd : ¬(a = '-' ∧ c = '-') := fun hx => ws_ne_dash hc hx.2
    have h1 : stripComment ([a] ++ [c]) = a :: stripComment [c] := by
      simp only [List.singleton_append]
      exact stripComment_cons (by intro hx; exact ws_ne_dash hc (by simpa using hx.2))
    rw [h1]
    show trimRightC ([a] ++ stripComment [c]) = trimRightC (stripComment [a])
    have h2 : stripComment [c] = [c] := rfl
    rw [h2, trimRightC_append_ws (by intro x hx; rw [List.mem_singleton] at hx; rwa [hx])]
    rfl
  | a :: b :: q => by
    by_cases hab : a = '-' ∧ b = '-'
    · have h1 : (a :: b :: q) ++ [c] = a :: b :: (q ++ [c]) := rfl
      rw [h1, hab.1, hab.2, stripComment_dashdash, stripComment_dashdash]
    · have h1 : (a :: b :: q) ++ [c] = a :: ((b :: q) ++ [c]) := rfl
      have hh : ¬(a = '-' ∧ ((b :: q) ++ [c]).head? = some '-') := by
        intro hx
        refine hab ⟨hx.1, ?_⟩
        have : ((b :: q) ++ [c]).head? = some b := rfl
        rw [this] at hx
        exact (Option.some_injective _ hx.2)
      rw [h1, stripComment_cons hh,
        stripComment_cons (by intro hx; exact hab ⟨hx.1, by simpa using hx.2⟩)]
      rw [trimRightC_cons, trimRightC_cons,
        trimRight_stripComment_snoc_ws hc (b :: q)]

theorem cleanLine_nil : cleanLine [] = [] := rfl

theorem cleanLine_snoc_ws {c : Char} (hc : wsChar c = true) :
    ∀ p : List Char, cleanLine (p ++ [c]) = cleanLine p
  | [] => by
    have h1 : stripComment ([] ++ [c]) = [c] := rfl
    unfold cleanLine trimC
    rw [h1, trimLeftC_cons]
    simp [hc]
    rfl
  | [a] => by
    have h1 : stripComment ([a] ++ [c]) = [a, c] := by
      simp only [List.singleton_append]
      rw [stripComment_cons (by intro hx; exact ws_ne_dash hc (by simpa using hx.2))]
      rfl
    have h2 : stripComment [a] = [a] := rfl
    unfold cleanLine trimC
    rw [h1, h2]
    by_cases ha : wsChar a
    · have l1 : trimLeftC [a, c] = [] := trimLeftC_eq_nil_iff.mpr (by
        intro x hx
        simp only [List.mem_cons, List.mem_singleton, List.not_mem_nil, or_false] at hx
        rcases hx with rfl | rfl
        · exact ha
        · exact hc)
      have l2 : trimLeftC [a] = [] := trimLeftC_eq_nil_iff.mpr (by
        intro x hx
        rw [List.mem_singleton] at hx
        rw [hx]
        exact ha)
      rw [l1, l2]
    · have l1 : trimLeftC [a, c] = [a, c] := by rw [trimLeftC_cons]; simp [ha]
      have l2 : trimLeftC [a] = [a] := by rw [trimLeftC_cons]; simp [ha]
      rw [l1, l2]
      show trimRightC ([a] ++ [c]) = trimRightC [a]
      exact trimRightC_append_ws (by intro x hx; rw [List.mem_singleton] at hx; rwa [hx])
  | a :: b :: q => by
    by_cases hab : a = '-' ∧ b = '-'
    · have h1 : (a :: b :: q) ++ [c] = a :: b :: (q ++ [c]) := rfl
      unfold cleanLine
      rw [h1, hab.1, hab.2, stripComment_dashdash, stripComment_dashdash]
    · have h1 : (a :: b :: q) ++ [c] = a :: ((b :: q) ++ [c]) := rfl
      have hh : ¬(a = '-' ∧ ((b :: q) ++ [c]).head? = some '-') := by
        intro hx
        refine hab ⟨hx.1, ?_⟩
        have : ((b :: q) ++ [c]).head? = some b := rfl
        rw [this] at hx
        exact (Option.some_injective _ hx.2)
      unfold cleanLine trimC
      rw [h1, stripComment_cons hh,
        stripComment_cons (by intro hx; exact hab ⟨hx.1, by simpa using hx.2⟩)]
      by_cases hsc : wsChar a
      · rw [trimLeftC_cons, trimLeftC_cons]
        simp only [hsc, if_true]
        exact cleanLine_snoc_ws hc (b :: q)
      · rw [trimLeftC_cons, trimLeftC_cons]
        rw [if_neg (by simp [hsc]), if_neg (by simp [hsc])]
        rw [trimRightC_cons, trimRightC_cons,
          trimRight_stripComment_snoc_ws hc (b :: q)]

theorem cleanLine_of_allws {w : List Char} (hw : ∀ c ∈ w, wsChar c = true) :
    cleanLine w = [] := by
  unfold cleanLine trimC
  rw [stripComment_of_no_dash (fun hm => by
    have := hw '-' hm
    exact absurd this (by decide))]
  rw [trimLeftC_eq_nil_iff.mpr hw]
  rfl

theorem cleanLine_comment (r : List Char) :
    cleanLine ('-' :: '-' :: r) = [] := by
  unfold cleanLine
  rw [stripComment_dashdash]
  rfl

/-! ## Lemmas about line splitting -/

theorem splitNlAux_append_nl (a b : List Char) :
    splitNlAux (a ++ '\n' :: b) =
      ((splitNlAux a).1, (splitNlAux a).2 ++ splitNl b) := by
  induction a with
  | nil => simp [splitNlAux, splitNl]
  | cons c a ih =>
    by_cases hcn : c = '\n'
    · subst hcn
      simp [splitNlAux, ih, splitNl]
    · simp [splitNlAux, ih, hcn, splitNl]

theorem splitNl_append_nl (a b : List Char) :
    splitNl (a ++ '\n' :: b) = splitNl a ++ splitNl b := by
  unfold splitNl
  rw [splitNlAux_append_nl]
  simp [splitNl]

theorem splitNlAux_no_nl {u : List Char} (h : '\n' ∉ u) :
    splitNlAux u = (u, []) := by
  induction u with
  | nil => rfl
  | cons c rest ih =>
    have hcn : c ≠ '\n' := fun he => h (he ▸ List.mem_cons_self c rest)
    have hr : '\n' ∉ rest := fun hm => h (List.mem_cons_of_mem c hm)
    simp only [splitNlAux, ih hr, if_neg hcn]

theorem splitNl_no_nl {u : List Char} (h : '\n' ∉ u) : splitNl u = [u] := by
  unfold splitNl
  rw [splitNlAux_no_nl h]

theorem last_nl_decomp {u : List Char} (h : '\n' ∈ u) :
    ∃ p q, u = p ++ '\n' :: q ∧ '\n' ∉ q := by
  induction u using List.reverseRecOn with
  | nil => simp at h
  | append_singleton us c ih =>
    by_cases hc : c = '\n'
    · subst hc
      exact ⟨us, [], rfl, by simp⟩
    · have : '\n' ∈ us := by
        rcases List.mem_append.mp h with h1 | h1
        · exact h1
        · rw [List.mem_singleton] at h1
          exact absurd h1.symm hc
      obtain ⟨p, q, hdec, hq⟩ := ih this
      refine ⟨p, q ++ [c], ?_, ?_⟩
      · rw [hdec]
        simp
      · intro hm
        rcases List.mem_append.mp hm with h1 | h1
        · exact hq h1
        · rw [List.mem_singleton] at h1
          exact hc h1.symm

/-! ## Lemmas about `keepLines` -/

theorem keepLines_append (A B : List (List Char)) :
    keepLines (A ++ B) = keepLines A ++ keepLines B := by
  unfold keepLines
  rw [List.map_append, List.filter_append]

theorem keepLines_map_congr {A : List (List Char)} {f : List Char → List Char}
    (hf : ∀ u ∈ A, cleanLine (f u) = cleanLine u) :
    keepLines (A.map f) = keepLines A := by
  unfold keepLines
  rw [List.map_map]
  congr 1
  apply List.map_congr_left
  intro u hu
  exact hf u hu

theorem cleanLine_stripCrEnd (u : List Char) :
    cleanLine (stripCrEnd u) = cleanLine u := by
  unfold stripCrEnd
  by_cases h : u.getLast? = some '\r'
  · rw [if_pos h]
    rcases List.getLast?_eq_some_iff.mp h with ⟨ys, hys⟩
    rw [hys]
    rw [List.dropLast_concat]
    exact (cleanLine_snoc_ws (by decide) ys).symm
  · rw [if_neg h]

theorem keepLines_dropLastEmpty (L : List (List Char)) :
    keepLines (dropLastEmpty L) = keepLines L := by
  unfold dropLastEmpty
  by_cases h : L.getLast? = some ([] : List Char)
  · rw [if_pos h]
    rcases List.getLast?_eq_some_iff.mp h with ⟨ys, hys⟩
    rw [hys, List.dropLast_concat, keepLines_append]
    have : keepLines [([] : List Char)] = [] := by
      unfold keepLines
      simp [cleanLine_nil]
    rw [this, List.append_nil]
  · rw [if_neg h]

theorem keepLines_rustLines (v : List Char) :
    keepLines (rustLines v) = keepLines (splitNl v) := by
  unfold rustLines
  rw [keepLines_map_congr (fun u _ => cleanLine_stripCrEnd u)]
  exact keepLines_dropLastEmpty (splitNl v)

theorem keepLines_snoc_ws {c : Char} (hc : wsChar c = true) (u : List Char) :
    keepLines (splitNl (u ++ [c])) = keepLines (splitNl u) := by
  by_cases hcn : c = '\n'
  · subst hcn
    have : u ++ ['\n'] = u ++ '\n' :: [] := rfl
    rw [this, splitNl_append_nl, keepLines_append]
    have : keepLines (splitNl []) = [] := by
      rw [splitNl_no_nl (by simp)]
      unfold keepLines
      simp [cleanLine_nil]
    rw [this, List.append_nil]
  · by_cases hu : '\n' ∈ u
    · obtain ⟨p, q, hdec, hq⟩ := last_nl_decomp hu
      rw [hdec]
      have h1 : (p ++ '\n' :: q) ++ [c] = p ++ '\n' :: (q ++ [c]) := by simp
      rw [h1, splitNl_append_nl, splitNl_append_nl, keepLines_append,
        keepLines_append]
      congr 1
      have hq1 : '\n' ∉ q ++ [c] := by
        intro hm
        rcases List.mem_append.mp hm with h2 | h2
        · exact hq h2
        · rw [List.mem_singleton] at h2
          exact hcn h2.symm
      rw [splitNl_no_nl hq1, splitNl_no_nl hq]
      unfold keepLines
      simp only [List.map, List.filter]
      rw [cleanLine_snoc_ws hc q]
    · have hu1 : '\n' ∉ u ++ [c] := by
        intro hm
        rcases List.mem_append.mp hm with h2 | h2
        · exact hu h2
        · rw [List.mem_singleton] at h2
          exact hcn h2.symm
      rw [splitNl_no_nl hu1, splitNl_no_nl hu]
      unfold keepLines
      simp only [List.map, List.filter]
      rw [cleanLine_snoc_ws hc u]

theorem keepLines_append_ws {w : List Char}
    (hw : ∀ c ∈ w, wsChar c = true) (u : List Char) :
    keepLines (splitNl (u ++ w)) = keepLines (splitNl u) := by
  induction w using List.reverseRecOn generalizing u with
  | nil => rw [List.append_nil]
  | append_singleton w' c ih =>
    have hc : wsChar c = true := hw c (by simp)
    have hw' : ∀ x ∈ w', wsChar x = true := fun x hx => hw x (by simp [hx])
    rw [← List.append_assoc, keepLines_snoc_ws hc (u ++ w'), ih hw']

/-! ## Invariance of the canonical text -/

theorem canonChars_append_ws {w : List Char}
    (hw : ∀ c ∈ w, wsChar c = true) (x : List Char) :
    canonChars (x ++ w) = canonChars x := by
  unfold canonChars
  rw [trimC_append_ws hw]

theorem trimRight_dashdash (u c : List Char) :
    trimRightC (u ++ '-' :: '-' :: c) = u ++ '-' :: '-' :: trimRightC c := by
  by_cases hc : ∀ x ∈ c, wsChar x = true
  · have h1 : trimRightC c = [] := trimRightC_eq_nil_iff.mpr hc
    rw [h1]
    have h2 : u ++ '-' :: '-' :: c = (u ++ ['-', '-']) ++ c := by simp
    rw [h2, trimRightC_append_ws hc]
    have h3 : u ++ ['-', '-'] = (u ++ ['-']) ++ ['-'] := by simp
    rw [h3, trimRightC_append_of_nonws ⟨'-', by simp, by decide⟩]
    have h4 : trimRightC ['-'] = ['-'] := by decide
    rw [h4]
  · push_neg at hc
    obtain ⟨z, hz, hzw⟩ := hc
    have hzf : wsChar z = false := by
      revert hzw
      cases wsChar z <;> simp
    have hex : ∃ x ∈ '-' :: '-' :: c, wsChar x = false :=
      ⟨z, by simp [hz], hzf⟩
    have h2 : u ++ '-' :: '-' :: c = u ++ (['-', '-'] ++ c) := by simp
    rw [h2, trimRightC_append_of_nonws (by simpa using hex)]
    rw [trimRightC_append_of_nonws ⟨z, hz, hzf⟩]
    simp

theorem canonChars_comment_line {c : List Char} (hc : '\n' ∉ c)
    (x : List Char) :
    canonChars (x ++ '\n' :: '-' :: '-' :: c) = canonChars x := by
  have e1 : wsChar '\n' = true := by decide
  have hnr : '\n' ∉ '-' :: '-' :: trimRightC c := by
    intro hm
    rcases List.mem_cons.mp hm with h1 | h1
    · exact absurd h1 (by decide)
    · rcases List.mem_cons.mp h1 with h2 | h2
      · exact absurd h2 (by decide)
      · exact hc (trimRightC_mem_subset h2)
  unfold canonChars trimC
  by_cases hx : trimLeftC x = []
  · have hx' : x.dropWhile wsChar = [] := hx
    have h1 : trimLeftC (x ++ '\n' :: '-' :: '-' :: c) = '-' :: '-' :: c := by
      unfold trimLeftC
      rw [dropWhile_append_of_nil hx']
      rw [List.dropWhile_cons, if_pos e1, List.dropWhile_cons,
        if_neg (by decide)]
    rw [h1, hx, trimRightC_nil]
    have h2 : trimRightC ('-' :: '-' :: c) = '-' :: '-' :: trimRightC c := by
      have := trimRight_dashdash [] c
      simpa using this
    rw [h2, keepLines_rustLines, keepLines_rustLines, splitNl_no_nl hnr,
      splitNl_no_nl (List.not_mem_nil '\n')]
    unfold keepLines
    simp [cleanLine_comment, cleanLine_nil]
  · have h1 : trimLeftC (x ++ '\n' :: '-' :: '-' :: c)
        = trimLeftC x ++ '\n' :: '-' :: '-' :: c := by
      unfold trimLeftC
      exact dropWhile_append_of_ne_nil hx
    rw [h1]
    have h2 : trimRightC (trimLeftC x ++ '\n' :: '-' :: '-' :: c)
        = trimLeftC x ++ '\n' :: '-' :: '-' :: trimRightC c := by
      have h3 := trimRight_dashdash (trimLeftC x ++ ['\n']) c
      have h4 : (trimLeftC x ++ ['\n']) ++ '-' :: '-' :: c
          = trimLeftC x ++ '\n' :: '-' :: '-' :: c := by simp
      have h5 : (trimLeftC x ++ ['\n']) ++ '-' :: '-' :: trimRightC c
          = trimLeftC x ++ '\n' :: '-' :: '-' :: trimRightC c := by simp
      rw [h4, h5] at h3
      exact h3
    rw [h2, keepLines_rustLines, keepLines_rustLines]
    obtain ⟨w1, hdec, hw1⟩ := trimRightC_decomp (trimLeftC x)
    conv_lhs => rw [hdec]
    have h6 : (trimRightC (trimLeftC x) ++ w1) ++ '\n' :: '-' :: '-' :: trimRightC c
        = (trimRightC (trimLeftC x) ++ w1) ++ '\n' :: ('-' :: '-' :: trimRightC c) := rfl
    rw [h6, splitNl_append_nl, keepLines_append, splitNl_no_nl hnr]
    have h7 : keepLines ['-' :: '-' :: trimRightC c] = [] := by
      unfold keepLines
      simp [cleanLine_comment]
    rw [h7, List.append_nil, keepLines_append_ws hw1]

theorem canonicalize_eq_of_data {x y : String}
    (h : canonChars x.data = canonChars y.data) :
    canonicalize x = canonicalize y := by
  unfold canonicalize
  rw [h]

theorem canonicalize_append_ws {x w : String}
    (hw : ∀ c ∈ w.data, wsChar c = true) :
    canonicalize (x ++ w) = canonicalize x := by
  apply canonicalize_eq_of_data
  rw [String.data_append]
  exact canonChars_append_ws hw x.data

theorem canonicalize_comment_line {x c : String} (hc : '\n' ∉ c.data) :
    canonicalize (x ++ "\n--" ++ c) = canonicalize x := by
  apply canonicalize_eq_of_data
  rw [String.data_append, String.data_append]
  have h1 : ("\n--" : String).data = ['\n', '-', '-'] := by decide
  rw [h1]
  have h2 : x.data ++ ['\n', '-', '-'] ++ c.data
      = x.data ++ '\n' :: '-' :: '-' :: c.data := by simp
  rw [h2]
  exact canonChars_comment_line hc x.data

/-- Claim C4: the hash computed by `MigrationEntry::new` is a pure function
of the canonicalized file content (strip each line from the first `--`
onward, trim each line, drop lines that become empty, rejoin with
newlines): contents with equal canonical text always get the same hash
(in particular, appending trailing whitespace or appending a `--` comment
line never changes the hash), and for a collision-free digest — the spec's
idealization of SHA-256 — any change to the surviving executable SQL text
yields a different hash. -/
theorem migration_hash_canonical :
    (∀ digest : String → String, ∀ x y : String,
        canonicalize x = canonicalize y →
          hashOf digest x = hashOf digest y) ∧
    (∀ digest : String → String, Function.Injective digest →
        ∀ x y : String, canonicalize x ≠ canonicalize y →
          hashOf digest x ≠ hashOf digest y) ∧
    (∀ digest : String → String, ∀ x w : String,
        (∀ c ∈ w.data, wsChar c = true) →
          hashOf digest (x ++ w) = hashOf digest x) ∧
    (∀ digest : String → String, ∀ x c : String, '\n' ∉ c.data →
        hashOf digest (x ++ "\n--" ++ c) = hashOf digest x) := by
  refine ⟨?_, ?_, ?_, ?_⟩
  · intro digest x y h
    unfold hashOf
    rw [h]
  · intro digest hinj x y h hcon
    exact h (hinj hcon)
  · intro digest x w hw
    unfold hashOf
    rw [canonicalize_append_ws hw]
  · intro digest x c hc
    unfold hashOf
    rw [canonicalize_comment_line hc]

/-- Witness for C4 at concrete inputs: a trailing blank, a trailing form
feed (U+000C, whitespace for `char::is_whitespace` though not ASCII
space/tab/CR/LF), a trailing `--` comment line, and a change of executable
text, all with the identity digest (which is injective). -/
theorem migration_hash_canonical_witness :
    hashOf id "SELECT 1;" = hashOf id "SELECT 1; " ∧
    hashOf id ("SELECT 1;" ++ "\x0C") = hashOf id "SELECT 1;" ∧
    hashOf id ("SELECT 1;" ++ "\n--" ++ " note") = hashOf id "SELECT 1;" ∧
    hashOf id "SELECT 1;" ≠ hashOf id "SELECT 2;" := by
  refine ⟨?_, ?_, ?_, ?_⟩
  · exact (migration_hash_canonical.1 id "SELECT 1;" "SELECT 1; " (by decide)).symm
  · exact migration_hash_canonical.2.2.1 id "SELECT 1;" "\x0C" (by decide)
  · exact migration_hash_canonical.2.2.2 id "SELECT 1;" " note" (by decide)
  · exact migration_hash_canonical.2.1 id (fun a b h => h) "SELECT 1;" "SELECT 2;"
      (by decide)

/-! ## Name generator (`create_new_migration`, src/migrations.rs)

Rust source (scan loop):
```
let re_number = Regex::new(r"^(\d+)[._-]").unwrap();
let re_timestamp = Regex::new(r"^(\d\x7b14\x7d)[._-]").unwrap();
let mut max_number = 0;
let mut latest_timestamp: Option<NaiveDateTime> = None;
let mut mode = None;
if let Ok(entries) = migration_dir.read_dir() {
    for entry in entries.flatten() {
        ... skip non-.sql ...
        if let Some(caps) = re_number.captures(file_name) {
            if let Ok(num) = caps[1].parse::<u32>() {
                max_number = max_number.max(num);
                mode = Some("number");
            }
        } else if let Some(caps) = re_timestamp.captures(file_name) {
            if let Ok(dt) = NaiveDateTime::parse_from_str(&caps[1], "%Y%m%d%H%M%S") {
                latest_timestamp = Some(latest_timestamp.map_or(dt, |prev| prev.max(dt)));
                mode = Some("timestamp");
            }
        }
    }
}
```
An unreadable directory (`Err` from `read_dir`) is silently skipped, and so
is every errored directory entry (`entries.flatten()`); `listing` below
models the successfully read entry names. -/

/-- Separator accepted after a numeric filename prefix: `[._-]`. -/
def sepChar (c : Char) : Bool := (c == '.') || (c == '_') || (c == '-')

/-- Capture group of `^(\d+)[._-]`: the greedy leading digit run, provided
it is nonempty and followed by a separator. -/
def numCapture (name : String) : Option (List Char) :=
  match name.data.dropWhile Char.isDigit with
  | c :: _ =>
    if (!(name.data.takeWhile Char.isDigit).isEmpty && sepChar c) then
      some (name.data.takeWhile Char.isDigit)
    else none
  | [] => none

/-- Capture group of `^(\d\x7b14\x7d)[._-]`: exactly 14 leading digits
followed by a separator. -/
def tsCapture (name : String) : Option (List Char) :=
  match name.data.drop 14 with
  | c :: _ =>
    if ((name.data.take 14).all Char.isDigit
        && ((name.data.take 14).length == 14) && sepChar c) then
      some (name.data.take 14)
    else none
  | [] => none

/-- Numeric value of a digit run. -/
def digitsToNat (ds : List Char) : Nat :=
  ds.foldl (fun a c => a * 10 + (c.toNat - 48)) 0

/-- Models `str::parse::<u32>()` on a digit run: fails on 32-bit
overflow. -/
def parseU32 (ds : List Char) : Option Nat :=
  if digitsToNat ds < 4294967296 then some (digitsToNat ds) else none

/-- Models Rust's `Path::extension`: the part after the last `.`, provided
some `.` occurs past the first position of the base name. -/
def extOf (cs : List Char) : Option (List Char) :=
  if '.' ∈ cs.drop 1 then
    some (cs.reverse.takeWhile (fun c => c != '.')).reverse
  else none

/-- Whether a directory entry name passes the `.sql`-extension filter. -/
def hasSqlExt (name : String) : Bool :=
  extOf name.data == some ['s', 'q', 'l']

/-- Leap year (proleptic Gregorian). -/
def isLeapYear (y : Nat) : Bool := y % 4 == 0 && (y % 100 != 0 || y % 400 == 0)

def daysInMonth (y m : Nat) : Nat :=
  if m = 2 then (if isLeapYear y then 29 else 28)
  else if m = 4 ∨ m = 6 ∨ m = 9 ∨ m = 11 then 30
  else 31

/-- Models `NaiveDateTime::parse_from_str(_, "%Y%m%d%H%M%S")` succeeding on
a 14-digit run: calendar validity (with `%S` accepting a leap second).
The branch consuming it is proved unreachable below, so no claim depends on
its fine structure. -/
def validDateTime (ds : List Char) : Bool :=
  let n := digitsToNat ds
  let y := n / 10000000000
  let mo := n / 100000000 % 100
  let d := n / 1000000 % 100
  let h := n / 10000 % 100
  let mi := n / 100 % 100
  let s := n % 100
  decide (1 ≤ mo ∧ mo ≤ 12 ∧ 1 ≤ d ∧ d ≤ daysInMonth y mo ∧ h ≤ 23 ∧
    mi ≤ 59 ∧ s ≤ 60)

/-- Naming convention recorded by the scan (`mode`). -/
inductive NamingMode
  | number
  | timestamp
deriving DecidableEq, Repr

/-- Loop state of the scan: `max_number`, `latest_timestamp`, `mode`. -/
structure GenState where
  maxNumber : Nat
  latestTs : Option Nat
  mode : Option NamingMode
deriving DecidableEq, Repr

def genInit : GenState := { maxNumber := 0, latestTs := none, mode := none }

/-- One iteration of the scan loop, for one directory entry name. -/
def genStep (st : GenState) (name : String) : GenState :=
  if hasSqlExt name = false then st
  else
    match numCapture name with
    | some ds =>
      match parseU32 ds with
      | some n =>
        { st with maxNumber := max st.maxNumber n, mode := some .number }
      | none => st
    | none =>
      match tsCapture name with
      | some ds =>
        if validDateTime ds then
          { st with
            latestTs := some (match st.latestTs with
              | some prev => max prev (digitsToNat ds)
              | none => digitsToNat ds),
            mode := some .timestamp }
        else st
      | none => st

/-- Whole directory scan. -/
def genScan (listing : List String) : GenState := listing.foldl genStep genInit

/-- Modulus of Rust's release-mode `u32` wrap-around for `max_number + 1`. -/
def u32Mod : Nat := 4294967296

/-- Chooses the new file name from the recorded mode. -/
def newFileName (st : GenState) (nowTs name : String) : String :=
  match st.mode with
  | some .number =>
    toString ((st.maxNumber + 1) % u32Mod) ++ "_" ++ name ++ ".sql"
  | _ => nowTs ++ "_" ++ name ++ ".sql"

inductive CreateResult
  | created (filename : String)
  | panicked
deriving DecidableEq, Repr

/-- Models `create_new_migration`.  `listing` is the `read_dir` outcome
(`none` is an `Err`, which the source silently skips); `createOk` models
whether `File::create` and the header `writeln!` succeed (their failure is
an `expect` panic); `nowTs` models `Utc::now().format("%Y%m%d%H%M%S")`. -/
def create_new_migration (listing : Option (List String)) (createOk : Bool)
    (nowTs name : String) : CreateResult :=
  let st := match listing with
    | some entries => genScan entries
    | none => genInit
  if createOk then .created (newFileName st nowTs name) else .panicked

/-- Condition under which one entry records the number convention:
`.sql` extension aside, the `re_number` capture parses as a `u32`. -/
def u32Capture (name : String) : Option Nat :=
  match numCapture name with
  | some ds => parseU32 ds
  | none => none

/-- Maximum 32-bit integer prefix over the `.sql` entries of a listing. -/
def maxNumOf (listing : List String) : Nat :=
  listing.foldl
    (fun a e =>
      if hasSqlExt e = true then
        match u32Capture e with
        | some n => max a n
        | none => a
      else a) 0

example : u32Capture "20240101120000_foo.sql" = none := by decide
example : u32Capture "12_foo.sql" = some 12 := by decide
example : tsCapture "20240101120000_foo.sql" = some "20240101120000".data := by decide
example : maxNumOf ["1_a.sql", "2_b.sql"] = 2 := by decide

/-! ## Lemmas about the name generator -/

theorem takeWhile_append_all {p : Char → Bool} {a b : List Char}
    (ha : ∀ x ∈ a, p x = true) :
    (a ++ b).takeWhile p = a ++ b.takeWhile p := by
  induction a with
  | nil => simp
  | cons c a ih =>
    have hc : p c = true := ha c (List.mem_cons_self c a)
    have ha' : ∀ x ∈ a, p x = true := fun x hx => ha x (List.mem_cons_of_mem c hx)
    simp [List.takeWhile_cons, hc, ih ha']

theorem sep_not_digit {c : Char} (h : sepChar c = true) :
    Char.isDigit c = false := by
  simp only [sepChar, Bool.or_eq_true, beq_iff_eq] at h
  rcases h with (rfl | rfl) | rfl <;> decide

theorem tsCapture_implies_numCapture {name : String}
    (h : (tsCapture name).isSome = true) :
    (numCapture name).isSome = true := by
  unfold tsCapture at h
  cases hdrop : name.data.drop 14 with
  | nil =>
    rw [hdrop] at h
    simp at h
  | cons c r =>
    rw [hdrop] at h
    by_cases hcond : ((name.data.take 14).all Char.isDigit
        && ((name.data.take 14).length == 14) && sepChar c) = true
    · have hsep : sepChar c = true := by
        simp only [Bool.and_eq_true] at hcond
        exact hcond.2
      have hdig : (name.data.take 14).all Char.isDigit = true := by
        simp only [Bool.and_eq_true] at hcond
        exact hcond.1.1
      have hlen : (name.data.take 14).length = 14 := by
        simp only [Bool.and_eq_true, beq_iff_eq] at hcond
        exact hcond.1.2
      have hdig' : ∀ x ∈ name.data.take 14, Char.isDigit x = true :=
        List.all_eq_true.mp hdig
      have hsplit : name.data = name.data.take 14 ++ (c :: r) := by
        rw [← hdrop]
        exact (List.take_append_drop 14 name.data).symm
      have hnd : Char.isDigit c = false := sep_not_digit hsep
      have htw : name.data.takeWhile Char.isDigit = name.data.take 14 := by
        conv_lhs => rw [hsplit]
        rw [takeWhile_append_all hdig']
        simp [List.takeWhile_cons, hnd]
      have hdw : name.data.dropWhile Char.isDigit = c :: r := by
        conv_lhs => rw [hsplit]
        rw [dropWhile_append_of_nil (List.dropWhile_eq_nil_iff.mpr hdig')]
        simp [List.dropWhile_cons, hnd]
      have hne : (name.data.takeWhile Char.isDigit).isEmpty = false := by
        rw [htw]
        cases hx : name.data.take 14 with
        | nil => rw [hx] at hlen; simp at hlen
        | cons y ys => rfl
      unfold numCapture
      rw [hdw]
      show (if (!(name.data.takeWhile Char.isDigit).isEmpty && sepChar c) = true
        then some (name.data.takeWhile Char.isDigit) else none).isSome = true
      rw [if_pos (by rw [hne, hsep]; rfl)]
      rfl
    · have h' : (if ((name.data.take 14).all Char.isDigit
          && ((name.data.take 14).length == 14) && sepChar c) = true
          then some (name.data.take 14)
          else (none : Option (List Char))).isSome = true := h
      rw [if_neg hcond] at h'
      simp at h'

/-- Collapsed form of `genStep`: since the timestamp pattern is subsumed by
the number pattern (tested first), the timestamp branch never runs. -/
theorem genStep_eq (st : GenState) (name : String) :
    genStep st name =
      if hasSqlExt name = true then
        match u32Capture name with
        | some n =>
          { st with maxNumber := max st.maxNumber n, mode := some .number }
        | none => st
      else st := by
  unfold genStep u32Capture
  by_cases hsql : hasSqlExt name = true
  · rw [if_neg (by simp [hsql]), if_pos hsql]
    cases hnum : numCapture name with
    | some ds => rfl
    | none =>
      cases hts : tsCapture name with
      | some ds =>
        have : (numCapture name).isSome = true :=
          tsCapture_implies_numCapture (by rw [hts]; rfl)
        rw [hnum] at this
        simp at this
      | none => rfl
  · have hf : hasSqlExt name = false := by
      cases hq : hasSqlExt name
      · rfl
      · exact absurd hq hsql
    rw [if_pos hf, if_neg hsql]

theorem genStep_mode_number_iff (st : GenState) (e : String) :
    (genStep st e).mode = some .number ↔
      st.mode = some .number ∨
        (hasSqlExt e = true ∧ (u32Capture e).isSome = true) := by
  rw [genStep_eq]
  by_cases hsql : hasSqlExt e = true
  · rw [if_pos hsql]
    cases hc : u32Capture e with
    | some n => simp [hsql, hc]
    | none => simp [hsql, hc]
  · rw [if_neg hsql]
    simp [hsql]

theorem genStep_mode_or (st : GenState) (e : String) :
    (genStep st e).mode = st.mode ∨ (genStep st e).mode = some .number := by
  rw [genStep_eq]
  by_cases hsql : hasSqlExt e = true
  · rw [if_pos hsql]
    cases hc : u32Capture e with
    | some n => right; rfl
    | none => left; rfl
  · rw [if_neg hsql]
    left; rfl

theorem foldl_genStep_mode_ne_timestamp :
    ∀ (l : List String) (st : GenState), st.mode ≠ some .timestamp →
      (l.foldl genStep st).mode ≠ some .timestamp := by
  intro l
  induction l with
  | nil => intro st h; exact h
  | cons e l ih =>
    intro st h
    rw [List.foldl_cons]
    apply ih
    rcases genStep_mode_or st e with h1 | h1
    · rw [h1]; exact h
    · rw [h1]; intro hx; cases hx

theorem foldl_genStep_mode_number_iff :
    ∀ (l : List String) (st : GenState),
      (l.foldl genStep st).mode = some .number ↔
        st.mode = some .number ∨
          ∃ e ∈ l, hasSqlExt e = true ∧ (u32Capture e).isSome = true := by
  intro l
  induction l with
  | nil => intro st; simp
  | cons e l ih =>
    intro st
    rw [List.foldl_cons, ih, genStep_mode_number_iff]
    constructor
    · rintro ((h | h) | ⟨f, hf, hp⟩)
      · exact Or.inl h
      · exact Or.inr ⟨e, List.mem_cons_self e l, h⟩
      · exact Or.inr ⟨f, List.mem_cons_of_mem e hf, hp⟩
    · rintro (h | ⟨f, hf, hp⟩)
      · exact Or.inl (Or.inl h)
      · rcases List.mem_cons.mp hf with rfl | hf'
        · exact Or.inl (Or.inr hp)
        · exact Or.inr ⟨f, hf', hp⟩

theorem foldl_genStep_maxNumber :
    ∀ (l : List String) (st : GenState),
      (l.foldl genStep st).maxNumber =
        l.foldl
          (fun a e =>
            if hasSqlExt e = true then
              match u32Capture e with
              | some n => max a n
              | none => a
            else a) st.maxNumber := by
  intro l
  induction l with
  | nil => intro st; rfl
  | cons e l ih =>
    intro st
    rw [List.foldl_cons, List.foldl_cons, ih]
    congr 1
    rw [genStep_eq]
    by_cases hsql : hasSqlExt e = true
    · rw [if_pos hsql, if_pos hsql]
      cases hc : u32Capture e with
      | some n => rfl
      | none => rfl
    · rw [if_neg hsql, if_neg hsql]

theorem genScan_maxNumber (l : List String) :
    (genScan l).maxNumber = maxNumOf l := by
  unfold genScan maxNumOf
  rw [foldl_genStep_maxNumber]
  rfl

theorem newFileName_eq (st : GenState) (nowTs name : String) :
    newFileName st nowTs name =
      if st.mode = some .number then
        toString ((st.maxNumber + 1) % u32Mod) ++ "_" ++ name ++ ".sql"
      else nowTs ++ "_" ++ name ++ ".sql" := by
  cases hm : st.mode with
  | none =>
    rw [if_neg (by simp)]
    unfold newFileName
    rw [hm]
  | some m =>
    cases m with
    | number =>
      rw [if_pos rfl]
      unfold newFileName
      rw [hm]
    | timestamp =>
      rw [if_neg (by simp)]
      unfold newFileName
      rw [hm]

/-! ## Claims C7, C8 and C10 -/

/-- Claim C7 (amended): if any existing `.sql` entry has a leading digit
run followed by `.`, `_` or `-` that parses as a 32-bit unsigned integer,
the new file's prefix is `max_integer + 1` (in `u32` arithmetic), and this
convention wins over the timestamp convention whenever both are present;
otherwise — including the empty-directory case and directories whose only
numeric prefixes overflow a `u32`, such as 14-digit timestamps — the new
name gets the current UTC time (a 14-digit timestamp) as its prefix. -/
theorem create_new_migration_naming :
    ∀ (entries : List String) (nowTs name : String),
      ((∃ e ∈ entries, hasSqlExt e = true ∧ (u32Capture e).isSome = true) →
        create_new_migration (some entries) true nowTs name
          = .created (toString ((maxNumOf entries + 1) % u32Mod)
              ++ "_" ++ name ++ ".sql")) ∧
      ((∀ e ∈ entries, hasSqlExt e = true → u32Capture e = none) →
        create_new_migration (some entries) true nowTs name
          = .created (nowTs ++ "_" ++ name ++ ".sql")) := by
  intro entries nowTs name
  constructor
  · intro hex
    have hmode : (genScan entries).mode = some .number := by
      unfold genScan
      rw [foldl_genStep_mode_number_iff]
      exact Or.inr hex
    show CreateResult.created (newFileName (genScan entries) nowTs name)
      = CreateResult.created _
    rw [newFileName_eq, if_pos hmode, genScan_maxNumber]
  · intro hnone
    have hmode : (genScan entries).mode ≠ some .number := by
      unfold genScan
      intro hcon
      rw [foldl_genStep_mode_number_iff] at hcon
      rcases hcon with h | ⟨f, hf, hsql, hp⟩
      · simp [genInit] at h
      · rw [hnone f hf hsql] at hp
        simp at hp
    show CreateResult.created (newFileName (genScan entries) nowTs name)
      = CreateResult.created _
    rw [newFileName_eq, if_neg hmode]

/-- Witness for C7 (amended) at the spec's own example: `1_foo.sql` and
`2_bar.sql` present, requesting `baz` yields `3_baz.sql`; and an empty
directory yields the timestamp name. -/
theorem create_new_migration_naming_witness :
    create_new_migration (some ["1_foo.sql", "2_bar.sql"]) true
        "20250101120000" "baz" = .created "3_baz.sql" ∧
    create_new_migration (some []) true "20250101120000" "init"
      = .created "20250101120000_init.sql" := by
  constructor
  · have h := (create_new_migration_naming ["1_foo.sql", "2_bar.sql"]
      "20250101120000" "baz").1 ⟨"1_foo.sql", by decide, by decide, by decide⟩
    rw [h]
    decide
  · exact (create_new_migration_naming [] "20250101120000" "init").2
      (by intro e he; cases he)

/-- Counterexample for C7 as stated: `20240101120000_foo.sql` matches the
claim's integer convention (a leading integer followed by `_`), yet the
generated name keeps the current-time timestamp prefix rather than
`max_integer + 1 = 20240101120001`. -/
theorem create_new_migration_cex :
    (numCapture "20240101120000_foo.sql").isSome = true ∧
    create_new_migration (some ["20240101120000_foo.sql"]) true
        "20991231235959" "baz" = .created "20991231235959_baz.sql" ∧
    ("20991231235959_baz.sql" : String) ≠ "20240101120001_baz.sql" := by
  refine ⟨by decide, by decide, by decide⟩

/-- Claim C8 (amended): `create_new_migration` fails (panics through
`expect`) when the new file cannot be created; but an unreadable
migrations directory is silently treated as empty — the scan is skipped
and the new file is created with the timestamp prefix, not an error. -/
theorem create_new_migration_failure :
    ∀ (listing : Option (List String)) (nowTs name : String),
      create_new_migration listing false nowTs name = .panicked ∧
      create_new_migration none true nowTs name
        = .created (nowTs ++ "_" ++ name ++ ".sql") := by
  intro listing nowTs name
  constructor
  · cases listing <;> rfl
  · rfl

/-- Counterexample for C8 as stated: with `read_dir` failing (unreadable
directory) and file creation succeeding, the function does not fail — it
silently proceeds as if the directory were empty and creates the
timestamp-named file. -/
theorem create_new_migration_unreadable_cex :
    create_new_migration none true "20250101120000" "init"
      = .created "20250101120000_init.sql" ∧
    create_new_migration none true "20250101120000" "init"
      ≠ .panicked := by
  refine ⟨by decide, by decide⟩

/-- Claim C10: every filename matching the 14-digit timestamp pattern (with
separator) also matches the leading-integer pattern, which is tested
first, so the scan never records the timestamp convention; consequently
the generated name uses an incremented integer prefix exactly when some
existing `.sql` entry has a leading integer prefix that parses as a
32-bit unsigned integer, and the current-time timestamp prefix in every
other case. -/
theorem timestamp_branch_unreachable :
    (∀ name : String, (tsCapture name).isSome = true →
        (numCapture name).isSome = true) ∧
    (∀ listing : List String,
        (genScan listing).mode ≠ some NamingMode.timestamp) ∧
    (∀ listing : List String,
        (genScan listing).mode = some NamingMode.number ↔
          ∃ e ∈ listing, hasSqlExt e = true ∧ (u32Capture e).isSome = true) ∧
    (∀ (listing : List String) (nowTs name : String),
        (∃ e ∈ listing, hasSqlExt e = true ∧ (u32Capture e).isSome = true) →
          newFileName (genScan listing) nowTs name
            = toString ((maxNumOf listing + 1) % u32Mod)
                ++ "_" ++ name ++ ".sql") ∧
    (∀ (listing : List String) (nowTs name : String),
        (¬ ∃ e ∈ listing, hasSqlExt e = true ∧ (u32Capture e).isSome = true) →
          newFileName (genScan listing) nowTs name
            = nowTs ++ "_" ++ name ++ ".sql") := by
  refine ⟨fun name => tsCapture_implies_numCapture, ?_, ?_, ?_, ?_⟩
  · intro listing
    exact foldl_genStep_mode_ne_timestamp listing genInit
      (by intro hx; cases hx)
  · intro listing
    unfold genScan
    rw [foldl_genStep_mode_number_iff]
    constructor
    · rintro (h | h)
      · simp [genInit] at h
      · exact h
    · exact Or.inr
  · intro listing nowTs name hex
    have hmode : (genScan listing).mode = some .number := by
      unfold genScan
      rw [foldl_genStep_mode_number_iff]
      exact Or.inr hex
    rw [newFileName_eq, if_pos hmode, genScan_maxNumber]
  · intro listing nowTs name hnex
    have hmode : (genScan listing).mode ≠ some .number := by
      unfold genScan
      intro hcon
      rw [foldl_genStep_mode_number_iff] at hcon
      rcases hcon with h | h
      · simp [genInit] at h
      · exact hnex h
    rw [newFileName_eq, if_neg hmode]

/-- Witness for C10 at concrete inputs: a timestamp-shaped name matches
the integer pattern; a directory holding both a timestamp-named and an
integer-named migration records the number convention and numbers the new
file; a directory holding only the timestamp-named file falls back to the
current-time prefix. -/
theorem timestamp_branch_unreachable_witness :
    (numCapture "20240101120000_x.sql").isSome = true ∧
    (genScan ["20240101120000_x.sql", "7_y.sql"]).mode
      = some NamingMode.number ∧
    newFileName (genScan ["20240101120000_x.sql", "7_y.sql"])
        "20991231235959" "baz" = "8_baz.sql" ∧
    newFileName (genScan ["20240101120000_x.sql"]) "20991231235959" "baz"
      = "20991231235959_baz.sql" := by
  refine ⟨?_, ?_, ?_, ?_⟩
  · exact timestamp_branch_unreachable.1 "20240101120000_x.sql" (by decide)
  · exact (timestamp_branch_unreachable.2.2.1 ["20240101120000_x.sql", "7_y.sql"]).mpr
      ⟨"7_y.sql", by decide, by decide, by decide⟩
  · have h := timestamp_branch_unreachable.2.2.2.1
      ["20240101120000_x.sql", "7_y.sql"] "20991231235959" "baz"
      ⟨"7_y.sql", by decide, by decide, by decide⟩
    rw [h]
    decide
  · exact timestamp_branch_unreachable.2.2.2.2 ["20240101120000_x.sql"]
      "20991231235959" "baz"
      (by
        rintro ⟨e, he, hsql, hp⟩
        rw [List.mem_singleton] at he
        subst he
        revert hp
        decide)

/-! ## File scanner (`run_migration`, src/migrations.rs)

Rust source:
```
let files: Vec<PathBuf> = WalkDir::new(migration_dir)
    .sort_by(|a, b| a.file_name().cmp(b.file_name()))
    .into_iter()
    .filter_map(|entry| entry.ok()) // skip errored entries
    .filter(|entry| entry.file_type().is_file())
    .filter(|entry| entry.path().extension().and_then(|e| e.to_str()) == Some("sql"))
    .map(|entry| entry.into_path())
    .collect();
```
`WalkDir::sort_by` sorts the entries *within each directory* by the given
comparator and walks depth-first; it does not globally sort the yielded
paths. -/

/-- A directory tree of named files and directories. -/
inductive FSTree where
  | file (nm : String)
  | dir (nm : String) (children : List FSTree)
deriving Repr

def FSTree.nameOf : FSTree → String
  | .file n => n
  | .dir n _ => n

/-- Insertion by the `WalkDir` comparator
`a.file_name().cmp(b.file_name())`. -/
def insByName (t : FSTree) : List FSTree → List FSTree
  | [] => [t]
  | u :: us =>
    if strLt t.nameOf u.nameOf then t :: u :: us else u :: insByName t us

/-- Siblings sorted by file name (the effect of `WalkDir::sort_by`). -/
def sortChildren (l : List FSTree) : List FSTree := l.foldr insByName []

/-- Structural size of a forest (used as walk fuel). -/
def forestSize : List FSTree → Nat
  | [] => 0
  | .file _ :: ts => 1 + forestSize ts
  | .dir _ cs :: ts => 1 + forestSize cs + forestSize ts

/-- Structural size of a tree. -/
def treeSize (t : FSTree) : Nat := forestSize [t]

/-- Depth-first walk with explicit fuel (any bound on the tree size),
yielding file names in `WalkDir` order: each directory's children are
sorted by name, then visited depth-first; only files are yielded
(directory entries are removed by the `is_file` filter). -/
def walkFuel : Nat → FSTree → List String
  | 0, _ => []
  | _ + 1, .file n => [n]
  | k + 1, .dir _ cs => (sortChildren cs).flatMap (walkFuel k)

/-- Names of the files yielded by the sorted recursive walk. -/
def walkFiles (t : FSTree) : List String := walkFuel (treeSize t) t

/-- Scanner output: the walked file names that carry the `.sql`
extension, in walk order. -/
def scanFiles (t : FSTree) : List String := (walkFiles t).filter hasSqlExt

theorem treeSize_file (n : String) : treeSize (.file n) = 1 := by
  simp [treeSize, forestSize]

theorem treeSize_dir (n : String) (cs : List FSTree) :
    treeSize (.dir n cs) = forestSize cs + 1 := by
  simp [treeSize, forestSize]
  omega

theorem treeSize_pos (t : FSTree) : 0 < treeSize t := by
  cases t with
  | file n => rw [treeSize_file]; omega
  | dir n cs => rw [treeSize_dir]; omega

theorem forestSize_cons (t : FSTree) (ts : List FSTree) :
    forestSize (t :: ts) = treeSize t + forestSize ts := by
  cases t with
  | file n => rw [treeSize_file]; simp [forestSize]
  | dir n cs => rw [treeSize_dir]; simp [forestSize]; omega

theorem treeSize_le_of_mem {c : FSTree} :
    ∀ {cs : List FSTree}, c ∈ cs → treeSize c ≤ forestSize cs := by
  intro cs
  induction cs with
  | nil => intro h; exact absurd h (List.not_mem_nil c)
  | cons u us ih =>
    intro h
    rw [forestSize_cons]
    rcases List.mem_cons.mp h with rfl | h1
    · omega
    · have := ih h1
      omega

theorem mem_insByName {x t : FSTree} :
    ∀ {l : List FSTree}, x ∈ insByName t l → x = t ∨ x ∈ l := by
  intro l
  induction l with
  | nil =>
    intro h
    rw [insByName] at h
    rcases List.mem_singleton.mp h with rfl
    exact Or.inl rfl
  | cons u us ih =>
    intro h
    rw [insByName] at h
    by_cases hlt : strLt t.nameOf u.nameOf
    · rw [if_pos hlt] at h
      rcases List.mem_cons.mp h with rfl | h1
      · exact Or.inl rfl
      · exact Or.inr h1
    · rw [if_neg hlt] at h
      rcases List.mem_cons.mp h with rfl | h1
      · exact Or.inr (List.mem_cons_self _ _)
      · rcases ih h1 with h2 | h2
        · exact Or.inl h2
        · exact Or.inr (List.mem_cons_of_mem u h2)

theorem mem_sortChildren {x : FSTree} :
    ∀ {l : List FSTree}, x ∈ sortChildren l → x ∈ l := by
  intro l
  induction l with
  | nil => intro h; exact absurd h (List.not_mem_nil x)
  | cons u us ih =>
    intro h
    rcases mem_insByName h with rfl | h1
    · exact List.mem_cons_self _ _
    · exact List.mem_cons_of_mem u (ih h1)

theorem walkFuel_congr :
    ∀ (k k' : Nat) (t : FSTree), treeSize t ≤ k → treeSize t ≤ k' →
      walkFuel k t = walkFuel k' t := by
  intro k
  induction k with
  | zero =>
    intro k' t hk _
    exact absurd hk (by have := treeSize_pos t; omega)
  | succ k ih =>
    intro k' t hk hk'
    cases k' with
    | zero => exact absurd hk' (by have := treeSize_pos t; omega)
    | succ k' =>
      cases t with
      | file n => rfl
      | dir n cs =>
        show (sortChildren cs).flatMap (walkFuel k)
          = (sortChildren cs).flatMap (walkFuel k')
        apply List.flatMap_congr
        intro c hc
        have hmem : c ∈ cs := mem_sortChildren hc
        have h1 : treeSize c ≤ forestSize cs := treeSize_le_of_mem hmem
        have h2 : treeSize (FSTree.dir n cs) = forestSize cs + 1 :=
          treeSize_dir n cs
        have hck : treeSize c ≤ k := by omega
        have hck' : treeSize c ≤ k' := by omega
        exact ih k' c hck hck'

theorem walkFiles_file (n : String) : walkFiles (.file n) = [n] := by
  unfold walkFiles
  rw [treeSize_file]
  rfl

theorem walkFiles_dir (n : String) (cs : List FSTree) :
    walkFiles (.dir n cs) = (sortChildren cs).flatMap walkFiles := by
  unfold walkFiles
  rw [treeSize_dir]
  show (sortChildren cs).flatMap (walkFuel (forestSize cs))
    = (sortChildren cs).flatMap (fun t => walkFuel (treeSize t) t)
  apply List.flatMap_congr
  intro c hc
  have hmem : c ∈ cs := mem_sortChildren hc
  have h1 : treeSize c ≤ forestSize cs := treeSize_le_of_mem hmem
  exact walkFuel_congr _ _ c h1 (le_refl _)

/-! ## Ascending byte-wise sort of names -/

theorem lexLt_asymm {a b : List Char} (h : lexLt a b = true) :
    lexLt b a = false := by
  cases hba : lexLt b a
  · rfl
  · have := lexLt_trans a b a h hba
    rw [lexLt_irrefl a] at this
    exact this.symm

/-- Non-strict byte-wise order on strings (`a ≤ b` as `¬ b < a`). -/
def strLeP (a b : String) : Prop := lexLt b.data a.data = false

theorem strLeP_of_strLt {a b : String} (h : strLt a b = true) : strLeP a b :=
  lexLt_asymm h

theorem strLeP_of_not_strLt {a b : String} (h : ¬ strLt a b = true) :
    strLeP b a := by
  unfold strLeP
  unfold strLt at h
  cases hx : lexLt a.data b.data
  · rfl
  · exact absurd hx h

theorem strLeP_trans {a b c : String} (hab : strLeP a b) (hbc : strLeP b c) :
    strLeP a c := by
  unfold strLeP at *
  cases hca : lexLt c.data a.data
  · rfl
  · cases hx : lexLt a.data b.data
    · have : a.data = b.data := lexLt_trichotomy _ _ hx hab
      rw [this] at hca
      rw [hca] at hbc
      exact hbc
    · have := lexLt_trans c.data a.data b.data hca hx
      rw [this] at hbc
      exact hbc

theorem strLeP_antisymm {a b : String} (hab : strLeP a b) (hba : strLeP b a) :
    a = b :=
  String.ext (lexLt_trichotomy a.data b.data hba hab)

instance : IsAntisymm String strLeP := ⟨fun _ _ => strLeP_antisymm⟩

/-- Insertion into a name-sorted list of strings. -/
def insStr (s : String) : List String → List String
  | [] => [s]
  | t :: ts => if strLt s t then s :: t :: ts else t :: insStr s ts

/-- Ascending byte-wise insertion sort on strings. -/
def sortStrings (l : List String) : List String := l.foldr insStr []

theorem mem_insStr {x s : String} :
    ∀ {l : List String}, x ∈ insStr s l → x = s ∨ x ∈ l := by
  intro l
  induction l with
  | nil =>
    intro h
    exact Or.inl (List.mem_singleton.mp h)
  | cons t ts ih =>
    intro h
    rw [insStr] at h
    by_cases hlt : strLt s t
    · rw [if_pos hlt] at h
      rcases List.mem_cons.mp h with rfl | h1
      · exact Or.inl rfl
      · exact Or.inr h1
    · rw [if_neg hlt] at h
      rcases List.mem_cons.mp h with rfl | h1
      · exact Or.inr (List.mem_cons_self _ _)
      · rcases ih h1 with h2 | h2
        · exact Or.inl h2
        · exact Or.inr (List.mem_cons_of_mem t h2)

theorem perm_insStr (s : String) :
    ∀ l : List String, (insStr s l).Perm (s :: l) := by
  intro l
  induction l with
  | nil => exact List.Perm.refl _
  | cons t ts ih =>
    rw [insStr]
    by_cases hlt : strLt s t
    · rw [if_pos hlt]
    · rw [if_neg hlt]
      exact (List.Perm.cons t ih).trans (List.Perm.swap s t ts)

theorem perm_sortStrings : ∀ l : List String, (sortStrings l).Perm l := by
  intro l
  induction l with
  | nil => exact List.Perm.refl _
  | cons x l ih =>
    show (insStr x (sortStrings l)).Perm (x :: l)
    exact (perm_insStr x (sortStrings l)).trans (List.Perm.cons x ih)

theorem sorted_insStr {s : String} :
    ∀ {l : List String}, List.Sorted strLeP l →
      List.Sorted strLeP (insStr s l) := by
  intro l
  induction l with
  | nil => intro _; simp [insStr]
  | cons t ts ih =>
    intro hs
    rw [List.sorted_cons] at hs
    obtain ⟨hhead, htail⟩ := hs
    rw [insStr]
    by_cases hlt : strLt s t
    · rw [if_pos hlt]
      rw [List.sorted_cons]
      refine ⟨?_, ?_⟩
      · intro b hb
        rcases List.mem_cons.mp hb with rfl | hb1
        · exact strLeP_of_strLt hlt
        · exact strLeP_trans (strLeP_of_strLt hlt) (hhead b hb1)
      · rw [List.sorted_cons]
        exact ⟨hhead, htail⟩
    · rw [if_neg hlt]
      rw [List.sorted_cons]
      refine ⟨?_, ih htail⟩
      intro b hb
      rcases mem_insStr hb with rfl | hb1
      · exact strLeP_of_not_strLt hlt
      · exact hhead b hb1

theorem sorted_sortStrings : ∀ l : List String,
    List.Sorted strLeP (sortStrings l) := by
  intro l
  induction l with
  | nil => simp [sortStrings]
  | cons x l ih => exact sorted_insStr ih

theorem filter_sortStrings (p : String → Bool) (l : List String) :
    (sortStrings l).filter p = sortStrings (l.filter p) := by
  apply List.eq_of_perm_of_sorted (r := strLeP)
  · exact (List.Perm.filter p (perm_sortStrings l)).trans
      (perm_sortStrings (l.filter p)).symm
  · exact List.Pairwise.filter p (sorted_sortStrings l)
  · exact sorted_sortStrings (l.filter p)

/-! ## Claim C6 -/

theorem insByName_map_file (s : String) :
    ∀ ns : List String,
      insByName (.file s) (ns.map FSTree.file)
        = (insStr s ns).map FSTree.file := by
  intro ns
  induction ns with
  | nil => rfl
  | cons t ts ih =>
    show insByName (.file s) (.file t :: ts.map FSTree.file) = _
    rw [insByName, insStr]
    by_cases hlt : strLt s t
    · rw [if_pos (by exact hlt), if_pos hlt]
      rfl
    · rw [if_neg (by exact hlt), if_neg hlt]
      rw [List.map_cons]
      rw [ih]

theorem sortChildren_map_file (ns : List String) :
    sortChildren (ns.map FSTree.file) = (sortStrings ns).map FSTree.file := by
  induction ns with
  | nil => rfl
  | cons t ts ih =>
    show insByName (.file t) (sortChildren (ts.map FSTree.file)) = _
    rw [ih]
    exact insByName_map_file t (sortStrings ts)

theorem flatMap_walkFiles_files (ns : List String) :
    (ns.map FSTree.file).flatMap walkFiles = ns := by
  induction ns with
  | nil => rfl
  | cons t ts ih =>
    rw [List.map_cons, List.flatMap_cons, walkFiles_file, ih]
    rfl

/-- Claim C6 (amended): the scanner is a deterministic function performing
a depth-first walk with each directory's entries in ascending byte order
of their names; when every migration file sits directly in the root (no
subdirectories) its output equals the ascending byte-wise sort of the
migration filenames, and is in particular sorted. -/
theorem scanner_flat_sorted :
    ∀ (root : String) (names : List String),
      scanFiles (.dir root (names.map FSTree.file))
          = sortStrings (names.filter hasSqlExt) ∧
      List.Sorted strLeP (scanFiles (.dir root (names.map FSTree.file))) := by
  intro root names
  have h1 : scanFiles (.dir root (names.map FSTree.file))
      = (sortStrings names).filter hasSqlExt := by
    unfold scanFiles
    rw [walkFiles_dir, sortChildren_map_file, flatMap_walkFiles_files]
  refine ⟨?_, ?_⟩
  · rw [h1, filter_sortStrings]
  · rw [h1]
    exact List.Pairwise.filter hasSqlExt (sorted_sortStrings names)

/-- Counterexample for C6 as stated: with a nested subdirectory the
depth-first walk interleaves directories into the order.  The root holds
the file `b.sql` and the subdirectory `a` holding `c.sql`; `a` sorts
before `b.sql` among the siblings, so the scan yields `c.sql` before
`b.sql` — not the ascending byte-wise sort of the two filenames. -/
theorem scanner_nested_cex :
    scanFiles (.dir "root" [.file "b.sql", .dir "a" [.file "c.sql"]])
        = ["c.sql", "b.sql"] ∧
    sortStrings ["c.sql", "b.sql"] = ["b.sql", "c.sql"] ∧
    (["c.sql", "b.sql"] : List String) ≠ ["b.sql", "c.sql"] := by
  refine ⟨?_, by decide, by decide⟩
  unfold scanFiles
  rw [walkFiles_dir]
  have hs : sortChildren [FSTree.file "b.sql", FSTree.dir "a" [FSTree.file "c.sql"]]
      = [FSTree.dir "a" [FSTree.file "c.sql"], FSTree.file "b.sql"] := by
    rfl
  rw [hs, List.flatMap_cons, List.flatMap_cons, List.flatMap_nil,
    walkFiles_dir, walkFiles_file]
  have hs2 : sortChildren [FSTree.file "c.sql"] = [FSTree.file "c.sql"] := rfl
  rw [hs2, List.flatMap_cons, List.flatMap_nil, walkFiles_file]
  decide

/-! ## Transactional run model (`run_migration`, src/migrations.rs)

The database is modelled by the list of tracking rows (`prior`), the next
`BIGSERIAL` id, and two oracles: `sqlOk sql` — whether
`Transaction::batch_execute(sql)` succeeds — and `insertOk filename` —
whether the tracking-row `INSERT ... RETURNING id` succeeds.  A
transaction holds its pending inserts; `commit` appends them to the store,
`rollback` discards them.  `BTreeMap<String, _>` is modelled by an
association list sorted by `strLt` on the keys whose insert overwrites. -/

/-- `BTreeMap::insert`: keeps keys sorted, overwrites on an equal key. -/
def alInsert {α : Type} (k : String) (v : α) :
    List (String × α) → List (String × α)
  | [] => [(k, v)]
  | (k', v') :: t =>
    if strLt k k' then (k, v) :: (k', v') :: t
    else if k = k' then (k, v) :: t
    else (k', v') :: alInsert k v t

/-- `BTreeMap::get` / `contains_key`. -/
def alLookup {α : Type} (k : String) : List (String × α) → Option α
  | [] => none
  | (k', v) :: t => if k = k' then some v else alLookup k t

/-- Database/transaction operations issued by a run, in order.  `exec`
also records which entry's SQL is being executed. -/
inductive Op
  | begin
  | exec (filename sql : String)
  | insertRow (filename : String)
  | rollback
  | commit
deriving DecidableEq, Repr

inductive RunOutcome
  | refused (filename : String)
  | failed (filename : String)
  | dryRunRolledBack
  | completed
deriving DecidableEq, Repr

structure TxnState where
  inserted : List MigrationEntry
  nextId : Nat
deriving Repr

structure RunResult where
  ops : List Op
  reports : List (Nat × Nat × String × Nat)
  outcome : RunOutcome
  finalStore : List MigrationEntry
deriving Repr

/-- `current_map`: filename ↦ (hash, raw sql), built by repeated
`BTreeMap::insert` over the scanned files in scan order (the hash as
computed by `MigrationEntry::new`; a later duplicate base name wins). -/
def buildCurrent (digest : String → String)
    (files : List (String × String)) : List (String × String × String) :=
  files.foldl (fun m f => alInsert f.1 (hashOf digest f.2, f.2) m) []

/-- `existing_map`: filename ↦ stored entry. -/
def buildExisting (prior : List MigrationEntry) :
    List (String × MigrationEntry) :=
  prior.foldl (fun m e => alInsert e.filename e m) []

/-- First violating stored filename in `BTreeMap` iteration order:
`Drifted` (hashes differ) or `Missing` (no current file).  This is where
the validation loop would `rollback` and return under `force=false`. -/
def firstViolation (current : List (String × String × String))
    (existing : List (String × MigrationEntry)) : Option String :=
  (existing.find? (fun p =>
    match alLookup p.1 current with
    | some hs => !(hs.1 == p.2.hash)
    | none => true)).map (fun p => p.1)

/-- The apply loop over `current_map` (sorted iteration with `enumerate`;
`idx` counts every iterated entry, skipped ones included; `total` is
`current_map.len()`).  Returns the issued operations, the printed
reports, the transaction state, and the first failing filename if any. -/
def applyLoop (sqlOk insertOk : String → Bool)
    (existing : List (String × MigrationEntry)) (total : Nat) :
    List (String × String × String) → Nat → TxnState →
      List Op × List (Nat × Nat × String × Nat) × TxnState × Option String
  | [], _, txn => ([], [], txn, none)
  | (fn, h, sql) :: rest, idx, txn =>
    if (alLookup fn existing).isSome then
      applyLoop sqlOk insertOk existing total rest (idx + 1) txn
    else if sqlOk sql = false then
      ([Op.exec fn sql], [], txn, some fn)
    else if insertOk fn = false then
      ([Op.exec fn sql, Op.insertRow fn], [], txn, some fn)
    else
      let r := applyLoop sqlOk insertOk existing total rest (idx + 1)
        { inserted := txn.inserted
            ++ [{ id := some txn.nextId, filename := fn, hash := h }],
          nextId := txn.nextId + 1 }
      (Op.exec fn sql :: Op.insertRow fn :: r.1,
        (idx + 1, total, fn, txn.nextId) :: r.2.1, r.2.2)

/-- Models `run_migration` over a database snapshot: reconciliation of the
scanned files against the stored entries, then the transactional apply. -/
def run_migration (digest : String → String) (sqlOk insertOk : String → Bool)
    (files : List (String × String)) (prior : List MigrationEntry)
    (nextId : Nat) (dryRun forceFlag : Bool) : RunResult :=
  let existing := buildExisting prior
  let current := buildCurrent digest files
  match (if forceFlag then none else firstViolation current existing) with
  | some fn =>
    { ops := [Op.begin, Op.rollback], reports := [],
      outcome := .refused fn, finalStore := prior }
  | none =>
    let r := applyLoop sqlOk insertOk existing current.length current 0
      { inserted := [], nextId := nextId }
    match r.2.2.2 with
    | some fn =>
      { ops := Op.begin :: r.1 ++ [Op.rollback], reports := r.2.1,
        outcome := .failed fn, finalStore := prior }
    | none =>
      if dryRun then
        { ops := Op.begin :: r.1 ++ [Op.rollback], reports := r.2.1,
          outcome := .dryRunRolledBack, finalStore := prior }
      else
        { ops := Op.begin :: r.1 ++ [Op.commit], reports := r.2.1,
          outcome := .completed, finalStore := prior ++ r.2.2.1.inserted }

/-- Pending entries: the current-map entries whose filename is absent from
the stored set, in ascending filename order. -/
def pendingList (digest : String → String) (files : List (String × String))
    (prior : List MigrationEntry) : List (String × String × String) :=
  (buildCurrent digest files).filter
    (fun p => (alLookup p.1 (buildExisting prior)).isNone)

/-- Tracking rows appended by a fully successful pending batch, with ids
assigned sequentially from `baseId`. -/
def insertsFrom (baseId : Nat) :
    List (String × String × String) → List MigrationEntry
  | [] => []
  | p :: ps =>
    { id := some baseId, filename := p.1, hash := p.2.1 }
      :: insertsFrom (baseId + 1) ps

/-- The rows a fully successful run appends to the store. -/
def pendingInserts (digest : String → String)
    (files : List (String × String)) (prior : List MigrationEntry)
    (nextId : Nat) : List MigrationEntry :=
  insertsFrom nextId (pendingList digest files prior)

/-- Filenames whose SQL was handed to `batch_execute`, in order. -/
def execNames (ops : List Op) : List String :=
  ops.filterMap (fun o =>
    match o with
    | .exec fn _ => some fn
    | _ => none)

/-- Reports built from the enumerated-and-filtered current entries:
1-based position within the whole current set, total = number of on-disk
entries, filename, sequentially assigned id. -/
def reportsFrom (total baseId : Nat) :
    List (Nat × (String × String × String)) →
      List (Nat × Nat × String × Nat)
  | [] => []
  | q :: qs => (q.1 + 1, total, q.2.1, baseId) :: reportsFrom total (baseId + 1) qs

/-- The reports of a fully successful run. -/
def expectedReports (digest : String → String)
    (files : List (String × String)) (prior : List MigrationEntry)
    (nextId : Nat) : List (Nat × Nat × String × Nat) :=
  reportsFrom (buildCurrent digest files).length nextId
    ((buildCurrent digest files).enum.filter
      (fun q => (alLookup q.2.1 (buildExisting prior)).isNone))

/-! ## Lemmas about the apply loop -/

theorem applyLoop_none (sqlOk insertOk : String → Bool)
    (existing : List (String × MigrationEntry)) (total : Nat) :
    ∀ (cur : List (String × String × String)) (idx : Nat) (txn : TxnState),
      (applyLoop sqlOk insertOk existing total cur idx txn).2.2.2 = none →
      (applyLoop sqlOk insertOk existing total cur idx txn).2.2.1.inserted
          = txn.inserted ++ insertsFrom txn.nextId
              (cur.filter (fun p => (alLookup p.1 existing).isNone)) ∧
      (applyLoop sqlOk insertOk existing total cur idx txn).2.2.1.nextId
          = txn.nextId
              + (cur.filter (fun p => (alLookup p.1 existing).isNone)).length ∧
      (applyLoop sqlOk insertOk existing total cur idx txn).1
          = (cur.filter (fun p => (alLookup p.1 existing).isNone)).flatMap
              (fun p => [Op.exec p.1 p.2.2, Op.insertRow p.1]) ∧
      (applyLoop sqlOk insertOk existing total cur idx txn).2.1
          = reportsFrom total txn.nextId
              ((cur.enumFrom idx).filter
                (fun q => (alLookup q.2.1 existing).isNone)) := by
  intro cur
  induction cur with
  | nil =>
    intro idx txn _
    refine ⟨by simp [applyLoop, insertsFrom], by simp [applyLoop],
      by simp [applyLoop], by simp [applyLoop, List.enumFrom, reportsFrom]⟩
  | cons p rest ih =>
    obtain ⟨fn, h, sql⟩ := p
    intro idx txn hnone
    cases hex : alLookup fn existing with
    | some e =>
      simp only [applyLoop, hex, Option.isSome_some, if_true] at hnone ⊢
      have hres := ih (idx + 1) txn hnone
      refine ⟨?_, ?_, ?_, ?_⟩
      · rw [hres.1]
        simp [List.filter_cons, hex]
      · rw [hres.2.1]
        simp [List.filter_cons, hex]
      · rw [hres.2.2.1]
        simp [List.filter_cons, hex]
      · rw [hres.2.2.2]
        simp [List.enumFrom, List.filter_cons, hex]
    | none =>
      cases hsq : sqlOk sql with
      | false =>
        simp only [applyLoop, hex, Option.isSome_none, Bool.false_eq_true,
          if_false, hsq, if_true] at hnone
        exact absurd hnone (by simp)
      | true =>
        cases hins : insertOk fn with
        | false =>
          simp only [applyLoop, hex, Option.isSome_none, Bool.false_eq_true,
            if_false, hsq, hins, if_true] at hnone
          simp at hnone
        | true =>
          simp only [applyLoop, hex, Option.isSome_none, Bool.false_eq_true,
            if_false, hsq, hins, Bool.true_eq_false] at hnone ⊢
          have hres := ih (idx + 1)
            { inserted := txn.inserted
                ++ [{ id := some txn.nextId, filename := fn, hash := h }],
              nextId := txn.nextId + 1 } hnone
          refine ⟨?_, ?_, ?_, ?_⟩
          · rw [hres.1]
            simp [List.filter_cons, hex, insertsFrom]
          · rw [hres.2.1]
            simp [List.filter_cons, hex]
            omega
          · rw [hres.2.2.1]
            simp [List.filter_cons, hex]
          · rw [hres.2.2.2]
            simp [List.enumFrom, List.filter_cons, hex, reportsFrom]

theorem applyLoop_no_fail (sqlOk insertOk : String → Bool)
    (existing : List (String × MigrationEntry)) (total : Nat) :
    ∀ (cur : List (String × String × String)) (idx : Nat) (txn : TxnState),
      (∀ p ∈ cur, (alLookup p.1 existing).isNone = true →
        sqlOk p.2.2 = true ∧ insertOk p.1 = true) →
      (applyLoop sqlOk insertOk existing total cur idx txn).2.2.2 = none := by
  intro cur
  induction cur with
  | nil => intro idx txn _; rfl
  | cons p rest ih =>
    obtain ⟨fn, h, sql⟩ := p
    intro idx txn hok
    have hok' : ∀ p ∈ rest, (alLookup p.1 existing).isNone = true →
        sqlOk p.2.2 = true ∧ insertOk p.1 = true :=
      fun p hp => hok p (List.mem_cons_of_mem _ hp)
    cases hex : alLookup fn existing with
    | some e =>
      simp only [applyLoop, hex, Option.isSome_some, if_true]
      exact ih (idx + 1) txn hok'
    | none =>
      have hcur := hok (fn, h, sql) (List.mem_cons_self _ _) (by rw [hex]; rfl)
      simp only [applyLoop, hex, Option.isSome_none, Bool.false_eq_true,
        if_false, hcur.1, hcur.2, Bool.true_eq_false]
      exact ih (idx + 1) _ hok'

theorem applyLoop_fail (sqlOk insertOk : String → Bool)
    (existing : List (String × MigrationEntry)) (total : Nat) :
    ∀ (cur : List (String × String × String)) (idx : Nat) (txn : TxnState)
      (fn : String),
      (applyLoop sqlOk insertOk existing total cur idx txn).2.2.2 = some fn →
      alLookup fn existing = none ∧
        ∃ h sql, (fn, h, sql) ∈ cur ∧
          (sqlOk sql = false ∨ insertOk fn = false) := by
  intro cur
  induction cur with
  | nil =>
    intro idx txn fn hf
    exact absurd hf (by simp [applyLoop])
  | cons p rest ih =>
    obtain ⟨gn, h, sql⟩ := p
    intro idx txn fn hf
    cases hex : alLookup gn existing with
    | some e =>
      simp only [applyLoop, hex, Option.isSome_some, if_true] at hf
      obtain ⟨h1, h2, s2, hmem, hfl⟩ := ih (idx + 1) txn fn hf
      exact ⟨h1, h2, s2, List.mem_cons_of_mem _ hmem, hfl⟩
    | none =>
      cases hsq : sqlOk sql with
      | false =>
        simp only [applyLoop, hex, Option.isSome_none, Bool.false_eq_true,
          if_false, hsq, if_true] at hf
        have hf' : gn = fn := by simpa using hf
        subst hf'
        exact ⟨hex, h, sql, List.mem_cons_self _ _, Or.inl hsq⟩
      | true =>
        cases hins : insertOk gn with
        | false =>
          simp only [applyLoop, hex, Option.isSome_none, Bool.false_eq_true,
            if_false, hsq, hins, if_true] at hf
          have hf' : gn = fn := by simpa using hf
          subst hf'
          exact ⟨hex, h, sql, List.mem_cons_self _ _, Or.inr hins⟩
        | true =>
          simp only [applyLoop, hex, Option.isSome_none, Bool.false_eq_true,
            if_false, hsq, hins, Bool.true_eq_false] at hf
          obtain ⟨h1, h2, s2, hmem, hfl⟩ := ih (idx + 1) _ fn hf
          exact ⟨h1, h2, s2, List.mem_cons_of_mem _ hmem, hfl⟩

theorem applyLoop_op_kinds (sqlOk insertOk : String → Bool)
    (existing : List (String × MigrationEntry)) (total : Nat) :
    ∀ (cur : List (String × String × String)) (idx : Nat) (txn : TxnState),
      ∀ o ∈ (applyLoop sqlOk insertOk existing total cur idx txn).1,
        (∃ fn sql, o = Op.exec fn sql) ∨ (∃ fn, o = Op.insertRow fn) := by
  intro cur
  induction cur with
  | nil =>
    intro idx txn o ho
    exact absurd ho (by simp [applyLoop])
  | cons p rest ih =>
    obtain ⟨fn, h, sql⟩ := p
    intro idx txn o ho
    cases hex : alLookup fn existing with
    | some e =>
      simp only [applyLoop, hex, Option.isSome_some, if_true] at ho
      exact ih (idx + 1) txn o ho
    | none =>
      cases hsq : sqlOk sql with
      | false =>
        simp only [applyLoop, hex, Option.isSome_none, Bool.false_eq_true,
          if_false, hsq, if_true] at ho
        rw [List.mem_singleton] at ho
        exact Or.inl ⟨fn, sql, ho⟩
      | true =>
        cases hins : insertOk fn with
        | false =>
          simp only [applyLoop, hex, Option.isSome_none, Bool.false_eq_true,
            if_false, hsq, hins, if_true] at ho
          rcases List.mem_cons.mp ho with rfl | ho1
          · exact Or.inl ⟨fn, sql, rfl⟩
          · rw [List.mem_singleton] at ho1
            exact Or.inr ⟨fn, ho1⟩
        | true =>
          simp only [applyLoop, hex, Option.isSome_none, Bool.false_eq_true,
            if_false, hsq, hins, Bool.true_eq_false] at ho
          rcases List.mem_cons.mp ho with rfl | ho1
          · exact Or.inl ⟨fn, sql, rfl⟩
          · rcases List.mem_cons.mp ho1 with rfl | ho2
            · exact Or.inr ⟨fn, rfl⟩
            · exact ih (idx + 1) _ o ho2

/-! ## Lemmas about the association-list maps -/

theorem alLookup_mem {α : Type} {k : String} {v : α} :
    ∀ {l : List (String × α)}, alLookup k l = some v → (k, v) ∈ l := by
  intro l
  induction l with
  | nil => intro h; exact absurd h (by simp [alLookup])
  | cons p t ih =>
    intro h
    rw [alLookup] at h
    by_cases hk : k = p.1
    · rw [if_pos hk] at h
      have : p = (k, v) := by
        obtain ⟨p1, p2⟩ := p
        simp only [Option.some_inj] at h
        simp at hk ⊢
        exact ⟨hk.symm, by rw [← h]⟩
      rw [this] at *
      exact List.mem_cons_self _ _
    · rw [if_neg hk] at h
      exact List.mem_cons_of_mem p (ih h)

theorem alLookup_alInsert {α : Type} (k k' : String) (v : α) :
    ∀ m : List (String × α),
      alLookup k (alInsert k' v m)
        = if k = k' then some v else alLookup k m := by
  intro m
  induction m with
  | nil =>
    simp [alInsert, alLookup]
  | cons p t ih =>
    obtain ⟨k2, v2⟩ := p
    rw [alInsert]
    by_cases h1 : strLt k' k2
    · rw [if_pos h1, alLookup]
    · rw [if_neg h1]
      by_cases h2 : k' = k2
      · rw [if_pos h2, alLookup]
        by_cases hk : k = k'
        · rw [if_pos hk, if_pos hk]
        · rw [if_neg hk, if_neg hk, alLookup,
            if_neg (by rw [← h2]; exact hk)]
      · rw [if_neg h2, alLookup]
        by_cases hk2 : k = k2
        · rw [if_pos hk2,
            if_neg (by intro hx; exact h2 (hx.symm.trans hk2)),
            alLookup, if_pos hk2]
        · rw [if_neg hk2, ih, alLookup, if_neg hk2]

theorem alLookup_foldl_isSome {α β : Type} (key : β → String) (val : β → α) :
    ∀ (xs : List β) (m : List (String × α)) (fn : String),
      (alLookup fn
          (xs.foldl (fun acc x => alInsert (key x) (val x) acc) m)).isSome
            = true ↔
        ((alLookup fn m).isSome = true ∨ fn ∈ xs.map key) := by
  intro xs
  induction xs with
  | nil => intro m fn; simp
  | cons x xs ih =>
    intro m fn
    rw [List.foldl_cons, ih, List.map_cons]
    rw [alLookup_alInsert]
    by_cases hk : fn = key x
    · rw [if_pos hk]
      simp [hk]
    · rw [if_neg hk]
      constructor
      · rintro (h | h)
        · exact Or.inl h
        · exact Or.inr (List.mem_cons_of_mem _ h)
      · rintro (h | h)
        · exact Or.inl h
        · rcases List.mem_cons.mp h with h1 | h1
          · exact absurd h1 hk
          · exact Or.inr h1

theorem buildCurrent_lookup_isSome (digest : String → String)
    (files : List (String × String)) (fn : String) :
    (alLookup fn (buildCurrent digest files)).isSome = true ↔
      fn ∈ files.map Prod.fst := by
  unfold buildCurrent
  rw [alLookup_foldl_isSome (fun f : String × String => f.1)
    (fun f => (hashOf digest f.2, f.2)) files [] fn]
  simp [alLookup]

theorem buildExisting_lookup_isSome (prior : List MigrationEntry)
    (fn : String) :
    (alLookup fn (buildExisting prior)).isSome = true ↔
      fn ∈ prior.map MigrationEntry.filename := by
  unfold buildExisting
  rw [alLookup_foldl_isSome MigrationEntry.filename (fun e => e) prior [] fn]
  simp [alLookup]

theorem bool_false_of_not_true {b : Bool} (h : ¬ b = true) : b = false := by
  cases b
  · rfl
  · exact absurd rfl h

theorem mem_alInsert {α : Type} {q : String × α} {k : String} {v : α} :
    ∀ {m : List (String × α)}, q ∈ alInsert k v m → q = (k, v) ∨ q ∈ m := by
  intro m
  induction m with
  | nil =>
    intro hq
    rw [alInsert] at hq
    exact Or.inl (List.mem_singleton.mp hq)
  | cons u us ih =>
    intro hq
    rw [alInsert] at hq
    by_cases hx1 : strLt k u.1
    · rw [if_pos hx1] at hq
      rcases List.mem_cons.mp hq with rfl | hq1
      · exact Or.inl rfl
      · exact Or.inr hq1
    · rw [if_neg hx1] at hq
      by_cases hx2 : k = u.1
      · rw [if_pos hx2] at hq
        rcases List.mem_cons.mp hq with rfl | hq1
        · exact Or.inl rfl
        · exact Or.inr (List.mem_cons_of_mem u hq1)
      · rw [if_neg hx2] at hq
        rcases List.mem_cons.mp hq with rfl | hq1
        · exact Or.inr (List.mem_cons_self _ _)
        · rcases ih hq1 with h3 | h3
          · exact Or.inl h3
          · exact Or.inr (List.mem_cons_of_mem u h3)

/-- Key-strict-order pairwise invariant of `alInsert`. -/
theorem alInsert_pairwise {α : Type} {k : String} {v : α} :
    ∀ {m : List (String × α)},
      m.Pairwise (fun p q => strLt p.1 q.1 = true) →
      (alInsert k v m).Pairwise (fun p q => strLt p.1 q.1 = true) := by
  intro m
  induction m with
  | nil => intro _; simp [alInsert]
  | cons p t ih =>
    obtain ⟨k2, v2⟩ := p
    intro hp
    rw [List.pairwise_cons] at hp
    obtain ⟨hhead, htail⟩ := hp
    rw [alInsert]
    by_cases h1 : strLt k k2
    · rw [if_pos h1, List.pairwise_cons]
      refine ⟨?_, ?_⟩
      · intro q hq
        rcases List.mem_cons.mp hq with rfl | hq1
        · exact h1
        · exact lexLt_trans _ _ _ h1 (hhead q hq1)
      · rw [List.pairwise_cons]
        exact ⟨hhead, htail⟩
    · rw [if_neg h1]
      by_cases h2 : k = k2
      · rw [if_pos h2, List.pairwise_cons]
        subst h2
        exact ⟨hhead, htail⟩
      · rw [if_neg h2, List.pairwise_cons]
        refine ⟨?_, ih htail⟩
        intro q hq
        rcases mem_alInsert hq with rfl | hq1
        · show strLt k2 k = true
          cases hx : strLt k2 k
          · have hkk : lexLt k.data k2.data = false :=
              bool_false_of_not_true h1
            have : k2 = k := String.ext (lexLt_trichotomy _ _ hx hkk)
            exact absurd this.symm h2
          · rfl
        · exact hhead q hq1

theorem alLookup_isSome_iff_mem_keys {α : Type} (k : String) :
    ∀ l : List (String × α),
      (alLookup k l).isSome = true ↔ k ∈ l.map Prod.fst := by
  intro l
  induction l with
  | nil => simp [alLookup]
  | cons p t ih =>
    rw [alLookup]
    by_cases hk : k = p.1
    · rw [if_pos hk]
      simp [hk]
    · rw [if_neg hk]
      rw [List.map_cons, List.mem_cons, ih]
      constructor
      · exact Or.inr
      · rintro (h | h)
        · exact absurd h hk
        · exact h

theorem foldl_alInsert_pairwise {α β : Type} (key : β → String) (val : β → α) :
    ∀ (xs : List β) (m : List (String × α)),
      m.Pairwise (fun p q => strLt p.1 q.1 = true) →
      (xs.foldl (fun acc x => alInsert (key x) (val x) acc) m).Pairwise
        (fun p q => strLt p.1 q.1 = true) := by
  intro xs
  induction xs with
  | nil => intro m hm; exact hm
  | cons x xs ih =>
    intro m hm
    rw [List.foldl_cons]
    exact ih _ (alInsert_pairwise hm)

theorem buildCurrent_pairwise (digest : String → String)
    (files : List (String × String)) :
    (buildCurrent digest files).Pairwise (fun p q => strLt p.1 q.1 = true) :=
  foldl_alInsert_pairwise _ _ files [] (by simp)

theorem insertsFrom_filename_mem {e : MigrationEntry} :
    ∀ {b : Nat} {l : List (String × String × String)},
      e ∈ insertsFrom b l → e.filename ∈ l.map Prod.fst := by
  intro b l
  induction l generalizing b with
  | nil => intro h; exact absurd h (by simp [insertsFrom])
  | cons p ps ih =>
    intro h
    rw [insertsFrom] at h
    rcases List.mem_cons.mp h with rfl | h1
    · simp
    · exact List.mem_cons_of_mem _ (ih h1)

theorem execNames_flatMap (pend : List (String × String × String)) :
    execNames (pend.flatMap (fun p => [Op.exec p.1 p.2.2, Op.insertRow p.1]))
      = pend.map Prod.fst := by
  induction pend with
  | nil => rfl
  | cons p ps ih =>
    rw [List.flatMap_cons, List.map_cons]
    show execNames ([Op.exec p.1 p.2.2, Op.insertRow p.1]
      ++ ps.flatMap (fun p => [Op.exec p.1 p.2.2, Op.insertRow p.1])) = _
    unfold execNames at *
    rw [List.filterMap_append, ih]
    rfl

theorem execNames_wrap (A : List Op) (z : Op)
    (hz : z = Op.commit ∨ z = Op.rollback) :
    execNames (Op.begin :: A ++ [z]) = execNames A := by
  rcases hz with rfl | rfl <;> simp [execNames]

theorem reportsFrom_filenames (total : Nat) :
    ∀ (qs : List (Nat × (String × String × String))) (b : Nat),
      (reportsFrom total b qs).map (fun t => t.2.2.1)
        = qs.map (fun q => q.2.1) := by
  intro qs
  induction qs with
  | nil => intro b; rfl
  | cons q qs ih =>
    intro b
    rw [reportsFrom, List.map_cons, List.map_cons, ih]

theorem enumFrom_filter_map_snd {α β : Type} (pred : α → Bool) (f : α → β) :
    ∀ (l : List α) (n : Nat),
      ((l.enumFrom n).filter (fun q => pred q.2)).map (fun q => f q.2)
        = (l.filter pred).map f := by
  intro l
  induction l with
  | nil => intro n; rfl
  | cons x xs ih =>
    intro n
    rw [List.enumFrom_cons, List.filter_cons, List.filter_cons]
    cases hp : pred x with
    | false => simpa [hp] using ih (n + 1)
    | true => simp [hp, ih (n + 1)]

theorem commit_not_mem_wrapped {A : List Op}
    (h : ∀ o ∈ A, (∃ fn sql, o = Op.exec fn sql) ∨ (∃ fn, o = Op.insertRow fn)) :
    Op.commit ∉ Op.begin :: A ++ [Op.rollback] := by
  intro hmem
  rcases List.mem_cons.mp hmem with h1 | h1
  · exact Op.noConfusion h1
  · rcases List.mem_append.mp h1 with h2 | h2
    · rcases h Op.commit h2 with ⟨fn, sql, he⟩ | ⟨fn, he⟩
      · exact Op.noConfusion he
      · exact Op.noConfusion he
    · rw [List.mem_singleton] at h2
      exact Op.noConfusion h2

/-- Unfolded shape of `run_migration` (definitional). -/
theorem run_migration_eq (digest : String → String)
    (sqlOk insertOk : String → Bool) (files : List (String × String))
    (prior : List MigrationEntry) (nextId : Nat) (dryRun forceFlag : Bool) :
    run_migration digest sqlOk insertOk files prior nextId dryRun forceFlag
      = match (if forceFlag then none
            else firstViolation (buildCurrent digest files)
              (buildExisting prior)) with
        | some fn =>
          { ops := [Op.begin, Op.rollback], reports := [],
            outcome := .refused fn, finalStore := prior }
        | none =>
          match (applyLoop sqlOk insertOk (buildExisting prior)
              (buildCurrent digest files).length (buildCurrent digest files) 0
              { inserted := [], nextId := nextId }).2.2.2 with
          | some fn =>
            { ops := Op.begin
                :: (applyLoop sqlOk insertOk (buildExisting prior)
                  (buildCurrent digest files).length (buildCurrent digest files)
                  0 { inserted := [], nextId := nextId }).1 ++ [Op.rollback],
              reports := (applyLoop sqlOk insertOk (buildExisting prior)
                  (buildCurrent digest files).length (buildCurrent digest files)
                  0 { inserted := [], nextId := nextId }).2.1,
              outcome := .failed fn, finalStore := prior }
          | none =>
            if dryRun then
              { ops := Op.begin
                  :: (applyLoop sqlOk insertOk (buildExisting prior)
                    (buildCurrent digest files).length (buildCurrent digest files)
                    0 { inserted := [], nextId := nextId }).1 ++ [Op.rollback],
                reports := (applyLoop sqlOk insertOk (buildExisting prior)
                    (buildCurrent digest files).length (buildCurrent digest files)
                    0 { inserted := [], nextId := nextId }).2.1,
                outcome := .dryRunRolledBack, finalStore := prior }
            else
              { ops := Op.begin
                  :: (applyLoop sqlOk insertOk (buildExisting prior)
                    (buildCurrent digest files).length (buildCurrent digest files)
                    0 { inserted := [], nextId := nextId }).1 ++ [Op.commit],
                reports := (applyLoop sqlOk insertOk (buildExisting prior)
                    (buildCurrent digest files).length (buildCurrent digest files)
                    0 { inserted := [], nextId := nextId }).2.1,
                outcome := .completed,
                finalStore := prior
                  ++ (applyLoop sqlOk insertOk (buildExisting prior)
                    (buildCurrent digest files).length (buildCurrent digest files)
                    0 { inserted := [], nextId := nextId }).2.2.1.inserted } := by
  rfl

/-! ## Claims C1, C2, C3, C5 and C9 -/

/-- Claim C1: on any execution or insert failure of a Pending entry the
whole transaction is rolled back (never committed) and the run returns
reporting the failed filename (a pending entry whose SQL execution or
tracking insert failed); the stored entry set after any run is either
exactly the prior set plus all successfully-validated Pending entries
(with their sequentially assigned ids), or exactly the prior set — never
anything in between. -/
theorem run_migration_atomic :
    ∀ (digest : String → String) (sqlOk insertOk : String → Bool)
      (files : List (String × String)) (prior : List MigrationEntry)
      (nextId : Nat) (dryRun forceFlag : Bool),
      ((run_migration digest sqlOk insertOk files prior nextId dryRun
          forceFlag).finalStore = prior ∨
        ((run_migration digest sqlOk insertOk files prior nextId dryRun
            forceFlag).outcome = RunOutcome.completed ∧
          (run_migration digest sqlOk insertOk files prior nextId dryRun
              forceFlag).finalStore
            = prior ++ pendingInserts digest files prior nextId)) ∧
      (∀ fn,
        (run_migration digest sqlOk insertOk files prior nextId dryRun
            forceFlag).outcome = RunOutcome.failed fn →
        (run_migration digest sqlOk insertOk files prior nextId dryRun
            forceFlag).finalStore = prior ∧
        Op.rollback ∈ (run_migration digest sqlOk insertOk files prior nextId
            dryRun forceFlag).ops ∧
        Op.commit ∉ (run_migration digest sqlOk insertOk files prior nextId
            dryRun forceFlag).ops ∧
        alLookup fn (buildExisting prior) = none ∧
        ∃ h sql, (fn, h, sql) ∈ buildCurrent digest files ∧
          (sqlOk sql = false ∨ insertOk fn = false)) := by
  intro digest sqlOk insertOk files prior nextId dryRun forceFlag
  rw [run_migration_eq]
  cases hV : (if forceFlag then none
      else firstViolation (buildCurrent digest files) (buildExisting prior)) with
  | some fn0 =>
    refine ⟨Or.inl rfl, ?_⟩
    intro fn hout
    simp at hout
  | none =>
    cases hfail : (applyLoop sqlOk insertOk (buildExisting prior)
        (buildCurrent digest files).length (buildCurrent digest files) 0
        { inserted := [], nextId := nextId }).2.2.2 with
    | some fn0 =>
      refine ⟨Or.inl rfl, ?_⟩
      intro fn hout
      have hfn : fn0 = fn := by simpa using hout
      subst hfn
      obtain ⟨hl, h, sql, hmem, hfl⟩ := applyLoop_fail sqlOk insertOk
        (buildExisting prior) (buildCurrent digest files).length
        (buildCurrent digest files) 0 { inserted := [], nextId := nextId }
        fn0 hfail
      refine ⟨rfl, ?_, ?_, hl, h, sql, hmem, hfl⟩
      · exact List.mem_cons_of_mem _
          (List.mem_append_right _ (List.mem_singleton.mpr rfl))
      · exact commit_not_mem_wrapped (applyLoop_op_kinds sqlOk insertOk
          (buildExisting prior) (buildCurrent digest files).length
          (buildCurrent digest files) 0 { inserted := [], nextId := nextId })
    | none =>
      cases dryRun with
      | true =>
        refine ⟨Or.inl (by simp), ?_⟩
        intro fn hout
        simp at hout
      | false =>
        refine ⟨Or.inr ⟨by simp, ?_⟩, ?_⟩
        · have hins := (applyLoop_none sqlOk insertOk (buildExisting prior)
            (buildCurrent digest files).length (buildCurrent digest files) 0
            { inserted := [], nextId := nextId } hfail).1
          simp only [] at hins
          simp
          rw [hins]
          simp [pendingInserts, pendingList]
        · intro fn hout
          simp at hout

/-- Witness for C1 at a concrete failing run: one pending file whose SQL
fails; the store is unchanged and the transaction rolled back. -/
theorem run_migration_atomic_witness :
    (run_migration (fun s => s) (fun _ => false) (fun _ => true)
      [("a.sql", "x")] [] 5 false false).finalStore = [] ∧
    Op.rollback ∈ (run_migration (fun s => s) (fun _ => false) (fun _ => true)
      [("a.sql", "x")] [] 5 false false).ops := by
  have h := (run_migration_atomic (fun s => s) (fun _ => false)
    (fun _ => true) [("a.sql", "x")] [] 5 false false).2 "a.sql" (by decide)
  exact ⟨h.1, h.2.1⟩

/-- Claim C2: with `force=false`, if any stored entry is Drifted (a
current file exists whose hash differs) or Missing (no current file), the
run refuses before executing any Pending entry, the transaction is only
begun and rolled back, and the store is left exactly as before. -/
theorem run_migration_refuses_drift :
    ∀ (digest : String → String) (sqlOk insertOk : String → Bool)
      (files : List (String × String)) (prior : List MigrationEntry)
      (nextId : Nat) (dryRun : Bool),
      (∃ fn e, alLookup fn (buildExisting prior) = some e ∧
        (match alLookup fn (buildCurrent digest files) with
          | some hs => hs.1 ≠ e.hash
          | none => True)) →
      (∃ f, (run_migration digest sqlOk insertOk files prior nextId dryRun
          false).outcome = RunOutcome.refused f) ∧
      (run_migration digest sqlOk insertOk files prior nextId dryRun
          false).ops = [Op.begin, Op.rollback] ∧
      execNames (run_migration digest sqlOk insertOk files prior nextId dryRun
          false).ops = [] ∧
      (run_migration digest sqlOk insertOk files prior nextId dryRun
          false).finalStore = prior := by
  intro digest sqlOk insertOk files prior nextId dryRun hviol
  obtain ⟨fn, e, hl, hv⟩ := hviol
  have hfind : (List.find? (fun p =>
      match alLookup p.1 (buildCurrent digest files) with
      | some hs => !(hs.1 == p.2.hash)
      | none => true) (buildExisting prior)).isSome = true := by
    rw [List.find?_isSome]
    refine ⟨(fn, e), alLookup_mem hl, ?_⟩
    show (match alLookup (fn, e).1 (buildCurrent digest files) with
      | some hs => !(hs.1 == (fn, e).2.hash)
      | none => true) = true
    cases hcur : alLookup fn (buildCurrent digest files) with
    | none => rfl
    | some hs =>
      rw [hcur] at hv
      show (!(hs.1 == e.hash)) = true
      simp [hv]
  rw [Option.isSome_iff_exists] at hfind
  obtain ⟨q, hq⟩ := hfind
  have hfv : firstViolation (buildCurrent digest files) (buildExisting prior)
      = some q.1 := by
    unfold firstViolation
    rw [hq]
    rfl
  set fv := q.1 with hfvdef
  rw [run_migration_eq]
  rw [if_neg (by simp), hfv]
  exact ⟨⟨fv, rfl⟩, rfl, rfl, rfl⟩

/-- Witness for C2 at a concrete drifted store: the stored hash for
`a.sql` differs from the current file's hash, so the run refuses and the
store is unchanged. -/
theorem run_migration_refuses_drift_witness :
    (run_migration (fun s => s) (fun _ => true) (fun _ => true)
      [("a.sql", "x")] [{ id := some 1, filename := "a.sql", hash := "OLD" }]
      5 false false).finalStore
      = [{ id := some 1, filename := "a.sql", hash := "OLD" }] ∧
    (run_migration (fun s => s) (fun _ => true) (fun _ => true)
      [("a.sql", "x")] [{ id := some 1, filename := "a.sql", hash := "OLD" }]
      5 false false).ops = [Op.begin, Op.rollback] := by
  have h := run_migration_refuses_drift (fun s => s) (fun _ => true)
    (fun _ => true) [("a.sql", "x")]
    [{ id := some 1, filename := "a.sql", hash := "OLD" }] 5 false
    ⟨"a.sql", { id := some 1, filename := "a.sql", hash := "OLD" },
      by decide, by
        have h1 : alLookup "a.sql"
            (buildCurrent (fun s : String => s) [("a.sql", "x")])
            = some ("x", "x") := by decide
        rw [h1]
        decide⟩
  exact ⟨h.2.2.2, h.2.1⟩

/-- Claim C3: a dry run (`dry_run=true`) never commits — the transaction
is rolled back on every path (validation refusal, execution failure, or
the unconditional rollback at the end) — so the store's entry set is
never changed by a dry run. -/
theorem run_migration_dry_run :
    ∀ (digest : String → String) (sqlOk insertOk : String → Bool)
      (files : List (String × String)) (prior : List MigrationEntry)
      (nextId : Nat) (forceFlag : Bool),
      (run_migration digest sqlOk insertOk files prior nextId true
          forceFlag).finalStore = prior ∧
      Op.commit ∉ (run_migration digest sqlOk insertOk files prior nextId true
          forceFlag).ops ∧
      Op.rollback ∈ (run_migration digest sqlOk insertOk files prior nextId
          true forceFlag).ops := by
  intro digest sqlOk insertOk files prior nextId forceFlag
  rw [run_migration_eq]
  cases hV : (if forceFlag then none
      else firstViolation (buildCurrent digest files) (buildExisting prior)) with
  | some fn0 =>
    refine ⟨rfl, ?_, ?_⟩
    · show Op.commit ∉ [Op.begin, Op.rollback]
      decide
    · show Op.rollback ∈ [Op.begin, Op.rollback]
      decide
  | none =>
    cases hfail : (applyLoop sqlOk insertOk (buildExisting prior)
        (buildCurrent digest files).length (buildCurrent digest files) 0
        { inserted := [], nextId := nextId }).2.2.2 with
    | some fn0 =>
      refine ⟨rfl, ?_, ?_⟩
      · exact commit_not_mem_wrapped (applyLoop_op_kinds sqlOk insertOk
          (buildExisting prior) (buildCurrent digest files).length
          (buildCurrent digest files) 0 { inserted := [], nextId := nextId })
      · exact List.mem_cons_of_mem _
          (List.mem_append_right _ (List.mem_singleton.mpr rfl))
    | none =>
      refine ⟨by simp, ?_, ?_⟩
      · rw [if_pos rfl]
        exact commit_not_mem_wrapped (applyLoop_op_kinds sqlOk insertOk
          (buildExisting prior) (buildCurrent digest files).length
          (buildCurrent digest files) 0 { inserted := [], nextId := nextId })
      · rw [if_pos rfl]
        exact List.mem_cons_of_mem _
          (List.mem_append_right _ (List.mem_singleton.mpr rfl))

theorem pendingList_names_mem_iff (digest : String → String)
    (files : List (String × String)) (prior : List MigrationEntry)
    (f : String) :
    f ∈ (pendingList digest files prior).map Prod.fst ↔
      (f ∈ files.map Prod.fst ∧ f ∉ prior.map MigrationEntry.filename) := by
  unfold pendingList
  constructor
  · intro h
    obtain ⟨p, hpf, hpe⟩ := List.mem_map.mp h
    subst hpe
    rw [List.mem_filter] at hpf
    obtain ⟨hpc, hpred⟩ := hpf
    constructor
    · have hm : p.1 ∈ (buildCurrent digest files).map Prod.fst :=
        List.mem_map_of_mem _ hpc
      rw [← alLookup_isSome_iff_mem_keys] at hm
      exact (buildCurrent_lookup_isSome digest files p.1).mp hm
    · intro hcon
      rw [← buildExisting_lookup_isSome] at hcon
      obtain ⟨v, hv⟩ := Option.isSome_iff_exists.mp hcon
      rw [hv] at hpred
      simp at hpred
  · rintro ⟨hf, hnp⟩
    have h1 : (alLookup f (buildCurrent digest files)).isSome = true :=
      (buildCurrent_lookup_isSome digest files f).mpr hf
    obtain ⟨v, hv⟩ := Option.isSome_iff_exists.mp h1
    have hmem : (f, v) ∈ buildCurrent digest files := alLookup_mem hv
    have h2 : (alLookup f (buildExisting prior)).isNone = true := by
      cases hx : alLookup f (buildExisting prior) with
      | none => rfl
      | some e =>
        exact absurd ((buildExisting_lookup_isSome prior f).mp
          (by rw [hx]; rfl)) hnp
    exact List.mem_map.mpr ⟨(f, v), List.mem_filter.mpr ⟨hmem, h2⟩, rfl⟩

theorem pendingList_names_pairwise (digest : String → String)
    (files : List (String × String)) (prior : List MigrationEntry) :
    ((pendingList digest files prior).map Prod.fst).Pairwise
      (fun a b => strLt a b = true) := by
  have hpw : (pendingList digest files prior).Pairwise
      (fun p q => strLt p.1 q.1 = true) :=
    List.Pairwise.filter _ (buildCurrent_pairwise digest files)
  exact List.Pairwise.map Prod.fst (fun a b h => h) hpw

/-- Claim C5: whenever the run proceeds past validation (`force=true` or no
drift/missing violation) and every Pending entry's SQL and insert succeed,
`run_migration` executes exactly the Pending entries — the filenames
present on disk and absent from the store, each exactly once, skipping
Unchanged/Drifted/Missing entries without touching them — in ascending
byte-wise filename order, inside a single transaction: one `begin`, then
only exec/insert operations, then exactly one final `commit` or
`rollback`. -/
theorem run_migration_pending_order :
    ∀ (digest : String → String) (sqlOk insertOk : String → Bool)
      (files : List (String × String)) (prior : List MigrationEntry)
      (nextId : Nat) (dryRun forceFlag : Bool),
      (forceFlag = true ∨
        firstViolation (buildCurrent digest files) (buildExisting prior)
          = none) →
      (∀ p ∈ pendingList digest files prior,
        sqlOk p.2.2 = true ∧ insertOk p.1 = true) →
      execNames (run_migration digest sqlOk insertOk files prior nextId
          dryRun forceFlag).ops
        = (pendingList digest files prior).map Prod.fst ∧
      (execNames (run_migration digest sqlOk insertOk files prior nextId
          dryRun forceFlag).ops).Pairwise (fun a b => strLt a b = true) ∧
      (∀ f,
        f ∈ execNames (run_migration digest sqlOk insertOk files prior nextId
            dryRun forceFlag).ops ↔
          (f ∈ files.map Prod.fst ∧
            f ∉ prior.map MigrationEntry.filename)) ∧
      (∃ mid,
        ((run_migration digest sqlOk insertOk files prior nextId dryRun
            forceFlag).ops = Op.begin :: mid ++ [Op.commit] ∨
          (run_migration digest sqlOk insertOk files prior nextId dryRun
              forceFlag).ops = Op.begin :: mid ++ [Op.rollback]) ∧
        ∀ o ∈ mid, o ≠ Op.begin ∧ o ≠ Op.commit ∧ o ≠ Op.rollback) ∧
      (∀ e ∈ (run_migration digest sqlOk insertOk files prior nextId dryRun
          forceFlag).finalStore,
        e ∈ prior ∨
          e.filename ∈ (pendingList digest files prior).map Prod.fst) := by
  intro digest sqlOk insertOk files prior nextId dryRun forceFlag hvf hok
  have hVnone : (if forceFlag then none
      else firstViolation (buildCurrent digest files) (buildExisting prior))
        = none := by
    rcases hvf with hf | hfv
    · rw [hf]
      simp
    · cases forceFlag
      · simpa using hfv
      · simp
  rw [run_migration_eq, hVnone]
  have hok' : ∀ p ∈ buildCurrent digest files,
      (alLookup p.1 (buildExisting prior)).isNone = true →
        sqlOk p.2.2 = true ∧ insertOk p.1 = true := by
    intro p hp hnone
    exact hok p (List.mem_filter.mpr ⟨hp, hnone⟩)
  have hfail := applyLoop_no_fail sqlOk insertOk (buildExisting prior)
    (buildCurrent digest files).length (buildCurrent digest files) 0
    { inserted := [], nextId := nextId } hok'
  rw [hfail]
  obtain ⟨hins, hnid, hops, hreps⟩ := applyLoop_none sqlOk insertOk
    (buildExisting prior) (buildCurrent digest files).length
    (buildCurrent digest files) 0 { inserted := [], nextId := nextId } hfail
  have hkinds := applyLoop_op_kinds sqlOk insertOk (buildExisting prior)
    (buildCurrent digest files).length (buildCurrent digest files) 0
    { inserted := [], nextId := nextId }
  have hmid : ∀ o ∈ (applyLoop sqlOk insertOk (buildExisting prior)
      (buildCurrent digest files).length (buildCurrent digest files) 0
      { inserted := [], nextId := nextId }).1,
      o ≠ Op.begin ∧ o ≠ Op.commit ∧ o ≠ Op.rollback := by
    intro o ho
    rcases hkinds o ho with ⟨fn, sql, rfl⟩ | ⟨fn, rfl⟩
    · exact ⟨Op.noConfusion, Op.noConfusion, Op.noConfusion⟩
    · exact ⟨Op.noConfusion, Op.noConfusion, Op.noConfusion⟩
  cases dryRun with
  | true =>
    rw [if_pos rfl]
    refine ⟨?_, ?_, ?_, ?_, ?_⟩
    · show execNames (Op.begin :: _ ++ [Op.rollback]) = _
      rw [execNames_wrap _ _ (Or.inr rfl), hops, execNames_flatMap]
      rfl
    · show (execNames (Op.begin :: _ ++ [Op.rollback])).Pairwise _
      rw [execNames_wrap _ _ (Or.inr rfl), hops, execNames_flatMap]
      exact pendingList_names_pairwise digest files prior
    · intro f
      show f ∈ execNames (Op.begin :: _ ++ [Op.rollback]) ↔ _
      rw [execNames_wrap _ _ (Or.inr rfl), hops, execNames_flatMap]
      exact pendingList_names_mem_iff digest files prior f
    · exact ⟨_, Or.inr rfl, hmid⟩
    · intro e he
      exact Or.inl he
  | false =>
    rw [if_neg (by simp)]
    refine ⟨?_, ?_, ?_, ?_, ?_⟩
    · show execNames (Op.begin :: _ ++ [Op.commit]) = _
      rw [execNames_wrap _ _ (Or.inl rfl), hops, execNames_flatMap]
      rfl
    · show (execNames (Op.begin :: _ ++ [Op.commit])).Pairwise _
      rw [execNames_wrap _ _ (Or.inl rfl), hops, execNames_flatMap]
      exact pendingList_names_pairwise digest files prior
    · intro f
      show f ∈ execNames (Op.begin :: _ ++ [Op.commit]) ↔ _
      rw [execNames_wrap _ _ (Or.inl rfl), hops, execNames_flatMap]
      exact pendingList_names_mem_iff digest files prior f
    · exact ⟨_, Or.inl rfl, hmid⟩
    · intro e he
      rcases List.mem_append.mp he with h1 | h1
      · exact Or.inl h1
      · right
        rw [hins] at h1
        rcases List.mem_append.mp h1 with h2 | h2
        · simp at h2
        · exact insertsFrom_filename_mem h2

/-- Witness for C5: two pending files given in reverse scan order are
executed in ascending filename order, bracketed by one transaction. -/
theorem run_migration_pending_order_witness :
    execNames (run_migration (fun s => s) (fun _ => true) (fun _ => true)
      [("b.sql", "y"), ("a.sql", "x")] [] 5 false false).ops
      = ["a.sql", "b.sql"] := by
  have h := (run_migration_pending_order (fun s => s) (fun _ => true)
    (fun _ => true) [("b.sql", "y"), ("a.sql", "x")] [] 5 false false
    (Or.inr (by decide)) (by decide)).1
  rw [h]
  decide

/-- Claim C9 (amended): whenever the run proceeds past validation and all
Pending entries succeed, each applied entry is reported in apply order
with its 1-based position within the full on-disk entry set (Unchanged and
skipped entries count too), the total number of on-disk entries — not its
position within the Pending batch — its filename, and its store-assigned
identifier (sequential from the store's next id). -/
theorem run_migration_report_positions :
    ∀ (digest : String → String) (sqlOk insertOk : String → Bool)
      (files : List (String × String)) (prior : List MigrationEntry)
      (nextId : Nat) (dryRun forceFlag : Bool),
      (forceFlag = true ∨
        firstViolation (buildCurrent digest files) (buildExisting prior)
          = none) →
      (∀ p ∈ pendingList digest files prior,
        sqlOk p.2.2 = true ∧ insertOk p.1 = true) →
      (run_migration digest sqlOk insertOk files prior nextId dryRun
          forceFlag).reports = expectedReports digest files prior nextId ∧
      ((run_migration digest sqlOk insertOk files prior nextId dryRun
          forceFlag).reports).map (fun t => t.2.2.1)
        = (pendingList digest files prior).map Prod.fst := by
  intro digest sqlOk insertOk files prior nextId dryRun forceFlag hvf hok
  have hVnone : (if forceFlag then none
      else firstViolation (buildCurrent digest files) (buildExisting prior))
        = none := by
    rcases hvf with hf | hfv
    · rw [hf]
      simp
    · cases forceFlag
      · simpa using hfv
      · simp
  rw [run_migration_eq, hVnone]
  have hok' : ∀ p ∈ buildCurrent digest files,
      (alLookup p.1 (buildExisting prior)).isNone = true →
        sqlOk p.2.2 = true ∧ insertOk p.1 = true := by
    intro p hp hnone
    exact hok p (List.mem_filter.mpr ⟨hp, hnone⟩)
  have hfail := applyLoop_no_fail sqlOk insertOk (buildExisting prior)
    (buildCurrent digest files).length (buildCurrent digest files) 0
    { inserted := [], nextId := nextId } hok'
  rw [hfail]
  obtain ⟨hins, hnid, hops, hreps⟩ := applyLoop_none sqlOk insertOk
    (buildExisting prior) (buildCurrent digest files).length
    (buildCurrent digest files) 0 { inserted := [], nextId := nextId } hfail
  have hrep_eq : (applyLoop sqlOk insertOk (buildExisting prior)
      (buildCurrent digest files).length (buildCurrent digest files) 0
      { inserted := [], nextId := nextId }).2.1
        = expectedReports digest files prior nextId := by
    rw [hreps]
    unfold expectedReports
    rfl
  have hrep_names : ((applyLoop sqlOk insertOk (buildExisting prior)
      (buildCurrent digest files).length (buildCurrent digest files) 0
      { inserted := [], nextId := nextId }).2.1).map (fun t => t.2.2.1)
        = (pendingList digest files prior).map Prod.fst := by
    rw [hreps, reportsFrom_filenames]
    exact enumFrom_filter_map_snd
      (fun p => (alLookup p.1 (buildExisting prior)).isNone) Prod.fst
      (buildCurrent digest files) 0
  cases dryRun with
  | true =>
    rw [if_pos rfl]
    exact ⟨hrep_eq, hrep_names⟩
  | false =>
    rw [if_neg (by simp)]
    exact ⟨hrep_eq, hrep_names⟩

/-- Witness for C9 (amended), at a run with one already-applied and one
pending file: the single report carries position 2 of 2 (the full on-disk
set), the pending filename and the assigned id. -/
theorem run_migration_report_positions_witness :
    (run_migration (fun s => s) (fun _ => true) (fun _ => true)
      [("a.sql", "x"), ("b.sql", "y")]
      [{ id := some 1, filename := "a.sql", hash := "x" }] 5 false
      false).reports = [(2, 2, "b.sql", 5)] := by
  have h := (run_migration_report_positions (fun s => s) (fun _ => true)
    (fun _ => true) [("a.sql", "x"), ("b.sql", "y")]
    [{ id := some 1, filename := "a.sql", hash := "x" }] 5 false false
    (Or.inr (by decide)) (by decide)).1
  rw [h]
  decide

/-- Counterexample for C9 as stated: a run over two on-disk files of which
only one (`b.sql`) is Pending reports it as `2/2` — its position among
all on-disk entries with the on-disk total — not as position 1 of a
1-entry Pending batch. -/
theorem run_migration_report_positions_cex :
    (run_migration (fun s => s) (fun _ => true) (fun _ => true)
      [("a.sql", "x"), ("b.sql", "y")]
      [{ id := some 1, filename := "a.sql", hash := "x" }] 5 false
      false).reports = [(2, 2, "b.sql", 5)] ∧
    (pendingList (fun s => s) [("a.sql", "x"), ("b.sql", "y")]
      [{ id := some 1, filename := "a.sql", hash := "x" }]).length = 1 ∧
    (2, 2, "b.sql", (5 : Nat)) ≠ (1, 1, "b.sql", (5 : Nat)) := by
  refine ⟨by decide, by decide, by decide⟩
